import Mathlib

/-!
Verification of the tag-resolution core of `bscotch-release.mjs`.

The script computes the next release tag for the bscotch fork:

  const baseVersion = getPackageJsonVersion();
  let latestTag = getMaxMatchingTag("v*-bscotch.*");
  if (!latestTag || !latestTag.startsWith(`v${baseVersion}-`)) {
      latestTag = `v${baseVersion}-bscotch.0`;
  }
  const nextVersion = semver.inc(latestTag, "prerelease", "bscotch");
  const nextTag = `v${nextVersion}`;

with utilities

  getMatchingTags(pattern) = run("git tag --list " + pattern)[0].split("\n")
  maxVersion(versions)     = versions.sort(semver.compare)[versions.length - 1]
  getMaxMatchingTag(p)     = maxVersion(getMatchingTags(p))

Strings are modelled as `List Char` (the inputs are ASCII git ref names and
manifest version strings).  The semver operations (`semver.compare`,
`semver.inc(v, "prerelease", "bscotch")`) are embedded from the semver v7
library that the script depends on: strict parsing with one optional leading
"v", canonical (no leading zeros) numeric components, prerelease identifiers
numeric-or-alphanumeric, optional build metadata ignored by precedence.
Idealisations (noted where relevant): no whitespace trimming (git forbids
whitespace in refnames), no MAX_SAFE_INTEGER cutoff on numeric components.
-/

namespace BscotchRelease

/-- Digit character, `[0-9]`, as in the semver regex character classes. -/
def isDigitC (c : Char) : Bool := 48 ≤ c.toNat && c.toNat ≤ 57

/-- Identifier character, `[0-9A-Za-z-]`, as in the semver regex. -/
def isIdChar (c : Char) : Bool :=
  isDigitC c || (65 ≤ c.toNat && c.toNat ≤ 90) || (97 ≤ c.toNat && c.toNat ≤ 122) || c = '-'

/-- A prerelease identifier: semver stores all-digit identifiers as numbers
and the rest as strings (`classes/semver.js`, prerelease mapping). -/
inductive PreId where
  | num : Nat → PreId
  | str : List Char → PreId
deriving DecidableEq

/-- Parsed semantic version: major.minor.patch, prerelease identifiers,
build-metadata identifiers. -/
structure SemVer where
  major : Nat
  minor : Nat
  patch : Nat
  prerelease : List PreId
  build : List (List Char)
deriving DecidableEq

/-- Split a char list at every occurrence of `c` (like JS `String.split`):
always returns at least one (possibly empty) chunk. -/
def splitAll (c : Char) : List Char → List (List Char)
  | [] => [[]]
  | a :: rest =>
    if a = c then [] :: splitAll c rest
    else
      match splitAll c rest with
      | p :: ps => (a :: p) :: ps
      | [] => [[a]]

/-- Split at the first occurrence of `c`: the part before it, and
`some` rest after it (`none` when `c` does not occur). -/
def splitFirst (c : Char) : List Char → List Char × Option (List Char)
  | [] => ([], none)
  | a :: rest =>
    if a = c then ([], some rest)
    else
      let (l, r) := splitFirst c rest
      (a :: l, r)

/-- Canonical decimal numeral: `0|[1-9][0-9]*` (the semver numeric-identifier
and main-version-component grammar). -/
def canonicalNum : List Char → Bool
  | [] => false
  | [c] => isDigitC c
  | c :: d :: rest => if c = '0' then false else isDigitC c && (d :: rest).all isDigitC

def digitVal (c : Char) : Nat := c.toNat - 48

def digitChar (d : Nat) : Char := Char.ofNat (48 + d)

/-- Decimal value of a digit string (most significant first). -/
def charsToNat (cs : List Char) : Nat := cs.foldl (fun a c => 10 * a + digitVal c) 0

/-- Little-endian decimal digits of `n`, with explicit fuel so that the
definition is structural and evaluates in the kernel. -/
def digitsFuel : Nat → Nat → List Nat
  | 0, _ => []
  | _ + 1, 0 => []
  | fuel + 1, n + 1 => ((n + 1) % 10) :: digitsFuel fuel ((n + 1) / 10)

/-- Canonical decimal rendering of a natural number. -/
def natToCanon (n : Nat) : List Char :=
  match n with
  | 0 => ['0']
  | _ => ((digitsFuel n n).reverse).map digitChar

/-- Parse one prerelease identifier:
`0|[1-9][0-9]*|[0-9]*[a-zA-Z-][a-zA-Z0-9-]*`; all-digit identifiers become
numbers. -/
def parsePreId (cs : List Char) : Option PreId :=
  if cs = [] then none
  else if cs.all isIdChar then
    if cs.all isDigitC then
      if canonicalNum cs then some (.num (charsToNat cs)) else none
    else some (.str cs)
  else none

/-- Parse one build-metadata identifier: `[0-9A-Za-z-]+`. -/
def parseBuildId (cs : List Char) : Option (List Char) :=
  if cs = [] then none
  else if cs.all isIdChar then some cs else none

/-- Parse a main-version component: `0|[1-9][0-9]*`. -/
def parseNumId (cs : List Char) : Option Nat :=
  if canonicalNum cs then some (charsToNat cs) else none

/-- Parse exactly three dot-separated main-version components. -/
def parseMain3 : List (List Char) → Option (Nat × Nat × Nat)
  | [a, b, c] =>
    match parseNumId a, parseNumId b, parseNumId c with
    | some x, some y, some z => some (x, y, z)
    | _, _, _ => none
  | _ => none

/-- Parse `major.minor.patch`. -/
def parseMain (cs : List Char) : Option (Nat × Nat × Nat) := parseMain3 (splitAll '.' cs)

/-- Effectful-free `mapM` over `Option`: parse every element or fail. -/
def mapO (f : α → Option β) : List α → Option (List β)
  | [] => some []
  | a :: l =>
    match f a, mapO f l with
    | some b, some bs => some (b :: bs)
    | _, _ => none

/-- Parse a dot-separated prerelease section. -/
def parsePre (cs : List Char) : Option (List PreId) := mapO parsePreId (splitAll '.' cs)

/-- Parse a dot-separated build-metadata section. -/
def parseBuild (cs : List Char) : Option (List (List Char)) := mapO parseBuildId (splitAll '.' cs)

/-- Strip the single optional leading `v` (`^v?` in the semver regex). -/
def dropV : List Char → List Char
  | [] => []
  | a :: rest => if a = 'v' then rest else a :: rest

/-- Strict semver parse (`new SemVer(s)` with default options): optional `v`,
then `major.minor.patch`, then an optional `-prerelease` (identifiers may
contain `-` but the first `-` after the main version starts the section),
then an optional `+build`.  `+` cannot occur inside any identifier, so
splitting at the first `+` and then the first `-` agrees with the regex. -/
def parseSemVer (s : List Char) : Option SemVer :=
  let s1 := dropV s
  let core := (splitFirst '+' s1).1
  let buildPart := (splitFirst '+' s1).2
  let mainPart := (splitFirst '-' core).1
  let prePart := (splitFirst '-' core).2
  match parseMain mainPart with
  | none => none
  | some (x, y, z) =>
    match (match prePart with | none => some [] | some p => parsePre p),
          (match buildPart with | none => some [] | some b => parseBuild b) with
    | some pre, some bld => some ⟨x, y, z, pre, bld⟩
    | _, _ => none

/-- Three-way comparison on naturals. -/
def cmpNat (a b : Nat) : Ordering := if a < b then .lt else if b < a then .gt else .eq

/-- JS string comparison (`a < b` on strings): lexicographic by code unit. -/
def cmpChars : List Char → List Char → Ordering
  | [], [] => .eq
  | [], _ :: _ => .lt
  | _ :: _, [] => .gt
  | a :: as, b :: bs => match cmpNat a.toNat b.toNat with | .eq => cmpChars as bs | o => o

/-- semver `compareIdentifiers`: numeric sorts below alphanumeric; numerics
by value; alphanumerics by string comparison. -/
def cmpId : PreId → PreId → Ordering
  | .num a, .num b => cmpNat a b
  | .num _, .str _ => .lt
  | .str _, .num _ => .gt
  | .str a, .str b => cmpChars a b

/-- Element-wise comparison of prerelease identifier sequences; a strict
prefix sorts below its extension. -/
def cmpIds : List PreId → List PreId → Ordering
  | [], [] => .eq
  | [], _ :: _ => .lt
  | _ :: _, [] => .gt
  | a :: as, b :: bs => match cmpId a b with | .eq => cmpIds as bs | o => o

/-- semver `comparePre`: a version with no prerelease sorts above any with
one. -/
def cmpPre (a b : List PreId) : Ordering :=
  match a, b with
  | [], [] => .eq
  | [], _ :: _ => .gt
  | _ :: _, [] => .lt
  | _, _ => cmpIds a b

/-- semver precedence (`compareMain` then `comparePre`); build metadata is
ignored. -/
def semverCompare (a b : SemVer) : Ordering :=
  match cmpNat a.major b.major with
  | .eq =>
    match cmpNat a.minor b.minor with
    | .eq =>
      match cmpNat a.patch b.patch with
      | .eq => cmpPre a.prerelease b.prerelease
      | o => o
    | o => o
  | o => o

/-- `semver.compare` on strings.  It is only invoked by the model on strings
that parse (the sort in `maxVersion` is guarded by that check, mirroring the
exception the JS comparator throws otherwise); the `.eq` fallback is junk. -/
def semverCompareStr (a b : List Char) : Ordering :=
  match parseSemVer a, parseSemVer b with
  | some va, some vb => semverCompare va vb
  | _, _ => .eq

/-- One step of the backwards numeric-increment scan: either the tail was
already incremented, or this identifier is incremented when numeric. -/
def incLastNumAux (x : PreId) (r : Option (List PreId)) (xs : List PreId) :
    Option (List PreId) :=
  match r with
  | some xs2 => some (x :: xs2)
  | none =>
    match x with
    | .num n => some (.num (n + 1) :: xs)
    | .str _ => none

/-- Increment the last numeric identifier, if any (`SemVer.inc`, case `pre`,
the `while (--i >= 0)` loop). -/
def incLastNum : List PreId → Option (List PreId)
  | [] => none
  | x :: xs => incLastNumAux x (incLastNum xs) xs

/-- The fork marker literal. -/
def marker : List Char := "bscotch".data

/-- `semver.inc(v, "prerelease", "bscotch")` (semver v7, identifierBase
undefined so `base = 0`):
1. `prerelease` with empty prerelease first bumps the patch;
2. case `pre`: bump the last numeric identifier, else append `0`;
3. identifier step: if the first identifier is not `bscotch`, or the second
   is not numeric, replace the whole prerelease by `[bscotch, 0]`. -/
def incPrerelease (v : SemVer) : SemVer :=
  let v1 := if v.prerelease = [] then { v with patch := v.patch + 1 } else v
  let pre1 :=
    if v1.prerelease = [] then [PreId.num 0]
    else
      match incLastNum v1.prerelease with
      | some p => p
      | none => v1.prerelease ++ [PreId.num 0]
  let pre2 :=
    match pre1 with
    | .str m :: .num k :: rest => if m = marker then .str m :: .num k :: rest else [.str marker, .num 0]
    | _ => [.str marker, .num 0]
  { v1 with prerelease := pre2 }

def renderId : PreId → List Char
  | .num n => natToCanon n
  | .str s => s

def joinWith (c : Char) : List (List Char) → List Char
  | [] => []
  | [p] => p
  | p :: ps => p ++ c :: joinWith c ps

def renderMain (x y z : Nat) : List Char :=
  natToCanon x ++ ('.' :: (natToCanon y ++ ('.' :: natToCanon z)))

def renderPre (pre : List PreId) : List Char := joinWith '.' (pre.map renderId)

/-- `SemVer.format`/`.version`: main version, then `-prerelease` when
present; build metadata is not included. -/
def renderSemVer (v : SemVer) : List Char :=
  renderMain v.major v.minor v.patch ++
    (if v.prerelease = [] then [] else '-' :: renderPre v.prerelease)

/-- `a.startsWithL b`-style prefix test (JS `String.startsWith`): first
argument is the candidate prefix. -/
def startsWithL : List Char → List Char → Bool
  | [], _ => true
  | _ :: _, [] => false
  | a :: as, b :: bs => if a = b then startsWithL as bs else false

/-- Does `pat` occur as a contiguous substring of `s`? -/
def containsPat (pat : List Char) (s : List Char) : Bool :=
  (List.range (s.length + 1)).any fun i => startsWithL pat (s.drop i)

/-- The literal chunk of the glob `v*-bscotch.*` between the wildcards. -/
def globPat : List Char := "-bscotch.".data

/-- `git tag --list "v*-bscotch.*"` membership: fnmatch `*` matches any
(possibly empty) sequence, so a tag matches iff it starts with `v` and
contains `-bscotch.` thereafter. -/
def globMatch (s : List Char) : Bool :=
  match s with
  | [] => false
  | a :: rest => if a = 'v' then containsPat globPat rest else false

/-- The two failure modes the resolution can hit, both surfacing semver's
`Invalid Version` TypeError: `invalidTagFormat` when the comparator inside
`maxVersion`'s sort throws on an unparsable listed tag (the script crashes),
`invalidVersionFormat` when `semver.inc` is handed an unparsable `latestTag`
(the JS `inc` wrapper then returns `null` and the script would produce the
degenerate `vnull`; the error models that no valid result is produced). -/
inductive Err where
  | invalidTagFormat
  | invalidVersionFormat
deriving DecidableEq

/-- `getMatchingTags("v*-bscotch.*")`: git performs the glob filtering.
(When nothing matches, the JS sees `[""]` and the falsy `""` takes the same
default branch as our `none`.) -/
def getMatchingTags (allTags : List (List Char)) : List (List Char) := allTags.filter globMatch

/-- The last element of a JS stable sort under comparator `cmp`: the
last-occurring maximum of the list. -/
def lastMaxBy (cmp : List Char → List Char → Ordering) : List Char → List (List Char) → List Char
  | acc, [] => acc
  | acc, x :: xs => lastMaxBy cmp (if cmp x acc = .lt then acc else x) xs

/-- `maxVersion(versions) = versions.sort(semver.compare)[versions.length-1]`.
An empty list yields `undefined` (`none`).  A one-element list never invokes
the comparator, so it is returned unchecked.  With two or more elements every
element takes part in at least one comparison, so if any element fails to
parse the comparator throws (`invalidTagFormat`); otherwise the last element
of the stable sort is the last-occurring maximum. -/
def maxVersion : List (List Char) → Except Err (Option (List Char))
  | [] => .ok none
  | [v] => .ok (some v)
  | v :: vs =>
    if (v :: vs).all (fun t => (parseSemVer t).isSome)
    then .ok (some (lastMaxBy semverCompareStr v vs))
    else .error .invalidTagFormat

def getMaxMatchingTag (allTags : List (List Char)) : Except Err (Option (List Char)) :=
  maxVersion (getMatchingTags allTags)

/-- The synthetic fallback tag `v${baseVersion}-bscotch.0`. -/
def defaultTag (base : List Char) : List Char := 'v' :: base ++ "-bscotch.0".data

/-- The prefix probe `v${baseVersion}-` of the `startsWith` check. -/
def basePrefix (base : List Char) : List Char := 'v' :: base ++ ['-']

/-- The `latestTag` value after the fallback: the flag records whether the
synthetic default was taken (`!latestTag || !latestTag.startsWith(...)`). -/
def latestTagOf (base : List Char) (allTags : List (List Char)) :
    Except Err (Bool × List Char) :=
  match getMaxMatchingTag allTags with
  | .error e => .error e
  | .ok none => .ok (true, defaultTag base)
  | .ok (some t) =>
    if startsWithL (basePrefix base) t then .ok (false, t) else .ok (true, defaultTag base)

/-- The whole resolution given the result of `getMaxMatchingTag`: choose
`latestTag`, then `semver.inc(latestTag, "prerelease", "bscotch")` and
prefix `v`. -/
def resolveFromMax (base : List Char) :
    Except Err (Option (List Char)) → Except Err (List Char × List Char)
  | .error e => .error e
  | .ok r =>
    let t :=
      match r with
      | none => defaultTag base
      | some m => if startsWithL (basePrefix base) m then m else defaultTag base
    match parseSemVer t with
    | none => .error .invalidVersionFormat
    | some v =>
      let nv := renderSemVer (incPrerelease v)
      .ok (nv, 'v' :: nv)

/-- The core resolution, `resolveNext(baseVersion, allTags)` of the spec:
lines 25–33 of the script, producing `(nextVersion, nextTag)`. -/
def resolveNext (base : List Char) (allTags : List (List Char)) :
    Except Err (List Char × List Char) :=
  resolveFromMax base (getMaxMatchingTag allTags)

/-- String-level wrapper of `resolveNext`. -/
def resolveNextS (base : String) (allTags : List String) : Except Err (String × String) :=
  match resolveNext base.data (allTags.map String.data) with
  | .error e => .error e
  | .ok (a, b) => .ok (String.mk a, String.mk b)

/-- String-level wrapper of `latestTagOf`. -/
def latestTagOfS (base : String) (allTags : List String) : Except Err (Bool × String) :=
  match latestTagOf base.data (allTags.map String.data) with
  | .error e => .error e
  | .ok (d, t) => .ok (d, String.mk t)

/-- Modelled from the spec (section 3, ReleaseFamily; section 4.1, filtering
step): a Tag (a string of the form `v<SemanticVersion>`) belongs to the
active family of `base` iff its major.minor.patch equals the base version
and its first prerelease identifier is the marker literal. -/
def specActiveFamilyTag (base : List Char) (t : List Char) : Bool :=
  if t.head? = some 'v' then
    match parseSemVer base, parseSemVer t with
    | some vb, some vt =>
      decide (vt.major = vb.major ∧ vt.minor = vb.minor ∧ vt.patch = vb.patch ∧
        vt.prerelease.head? = some (.str marker))
    | _, _ => false
  else false

/-- Modelled from the spec (section 6, Output): is `t` literally of the form
`v<base>-bscotch.<N>` with `N` a canonical non-negative integer? -/
def specClaimedTagForm (base : List Char) (t : List Char) : Bool :=
  let p := 'v' :: base ++ '-' :: marker ++ ['.']
  startsWithL p t && canonicalNum (t.drop p.length)

end BscotchRelease

namespace BscotchRelease

/-- Claim C1, counterexample: with base version `1.0.0` and tags
`{v1.0.0-bscotch.0, v1.0.0-zzz-bscotch.9}` the resolution succeeds and
returns `v1.0.0-bscotch.0`, which is already an element of the input tag set
and is a member of the active family that the result fails to sort strictly
above (the foreign-identifier tag `v1.0.0-zzz-bscotch.9` matches the glob,
wins the maximum, and `semver.inc` resets its prerelease to `bscotch.0`). -/
theorem c1_counterexample :
    resolveNextS "1.0.0" ["v1.0.0-bscotch.0", "v1.0.0-zzz-bscotch.9"] =
      .ok ("1.0.0-bscotch.0", "v1.0.0-bscotch.0") ∧
    "v1.0.0-bscotch.0" ∈ ["v1.0.0-bscotch.0", "v1.0.0-zzz-bscotch.9"] ∧
    specActiveFamilyTag "1.0.0".data "v1.0.0-bscotch.0".data = true ∧
    semverCompareStr "v1.0.0-bscotch.0".data "v1.0.0-bscotch.0".data ≠ .gt :=
  ⟨rfl, by decide, rfl, by decide⟩

/-- Claim C2, counterexample: with base version `1.0.0` and tags
`{v1.0.0-bscotch.3, v2.0.0-bscotch.5}` the active family is non-empty
(`v1.0.0-bscotch.3` is a member), yet the anchor used for incrementing is the
synthetic default `v1.0.0-bscotch.0` — a string not even present in the tag
set, hence not the family maximum — because the code takes the maximum over
all `v*-bscotch.*` tags first and the foreign-base tag `v2.0.0-bscotch.5`
wins, failing the `startsWith` test.  The result is `.1` instead of the
family-max-anchored `.4`. -/
theorem c2_counterexample :
    latestTagOfS "1.0.0" ["v1.0.0-bscotch.3", "v2.0.0-bscotch.5"] =
      .ok (true, "v1.0.0-bscotch.0") ∧
    specActiveFamilyTag "1.0.0".data "v1.0.0-bscotch.3".data = true ∧
    "v1.0.0-bscotch.0" ∉ ["v1.0.0-bscotch.3", "v2.0.0-bscotch.5"] ∧
    resolveNextS "1.0.0" ["v1.0.0-bscotch.3", "v2.0.0-bscotch.5"] =
      .ok ("1.0.0-bscotch.1", "v1.0.0-bscotch.1") ∧
    resolveNextS "1.0.0" ["v1.0.0-bscotch.3"] =
      .ok ("1.0.0-bscotch.4", "v1.0.0-bscotch.4") :=
  ⟨rfl, rfl, by decide, rfl, rfl⟩

/-- Claim C3, counterexample: with base version `1.0.0` and an empty tag set
the resolution returns `v1.0.0-bscotch.1`, not the claimed `v1.0.0-bscotch.0`
with counter zero: the code seeds `latestTag = v1.0.0-bscotch.0` and then
unconditionally applies `semver.inc`, so the counter starts at one. -/
theorem c3_counterexample :
    resolveNextS "1.0.0" [] = .ok ("1.0.0-bscotch.1", "v1.0.0-bscotch.1") ∧
    (("1.0.0-bscotch.1", "v1.0.0-bscotch.1") : String × String) ≠
      ("1.0.0-bscotch.0", "v1.0.0-bscotch.0") :=
  ⟨rfl, by decide⟩

/-- Claim C5, counterexample: adding the tag `v2.0.0-bscotch.5` — outside the
active family of base `1.0.0` since its base version differs — changes the
result from `v1.0.0-bscotch.4` to `v1.0.0-bscotch.1`, because it matches the
glob `v*-bscotch.*`, becomes the maximum, and forces the synthetic-default
fallback. -/
theorem c5_counterexample :
    resolveNextS "1.0.0" ["v1.0.0-bscotch.3"] =
      .ok ("1.0.0-bscotch.4", "v1.0.0-bscotch.4") ∧
    resolveNextS "1.0.0" ["v1.0.0-bscotch.3", "v2.0.0-bscotch.5"] =
      .ok ("1.0.0-bscotch.1", "v1.0.0-bscotch.1") ∧
    specActiveFamilyTag "1.0.0".data "v2.0.0-bscotch.5".data = false ∧
    ("1.0.0-bscotch.4" : String) ≠ "1.0.0-bscotch.1" :=
  ⟨rfl, rfl, rfl, by decide⟩

/-- Claim C7, counterexample: the base version `1.0.0-alpha` contains a
prerelease segment, so by the claim the resolution must fail with
`InvalidVersionFormat`; instead it succeeds (the synthetic tag
`v1.0.0-alpha-bscotch.0` is a valid semver whose prerelease identifiers are
`alpha-bscotch` and `0`, and `semver.inc` replaces them by `bscotch.0`). -/
theorem c7_counterexample :
    parseSemVer "1.0.0-alpha".data = some ⟨1, 0, 0, [.str "alpha".data], []⟩ ∧
    resolveNextS "1.0.0-alpha" [] = .ok ("1.0.0-bscotch.0", "v1.0.0-bscotch.0") :=
  ⟨rfl, rfl⟩

/-- Claim C8, counterexample: the tag `v1.0-bscotch.7` does not parse as a
semantic version, so it is not in the active family (marker-and-base-version
filter) of base `2.0.0`; the claim says such tags are silently ignored and
never cause an error, yet the resolution fails with `InvalidTagFormat`
because the tag matches the glob `v*-bscotch.*` and the comparator throws on
it during the sort in `maxVersion`. -/
theorem c8_counterexample :
    parseSemVer "v1.0-bscotch.7".data = none ∧
    specActiveFamilyTag "2.0.0".data "v1.0-bscotch.7".data = false ∧
    resolveNextS "2.0.0" ["v1.0-bscotch.7", "v2.0.0-bscotch.0"] =
      .error .invalidTagFormat :=
  ⟨rfl, rfl, rfl⟩

/-- Claim C9, counterexample: with base version `1.0.0` and tag set
`{v1.0.0-bscotch.3.x}` the resolution succeeds and returns
`v1.0.0-bscotch.4.x`, which is not of the claimed form
`v<major>.<minor>.<patch>-bscotch.<N>` with `N` a non-negative integer — the
anchor's extra alphanumeric identifier `x` survives the increment. -/
theorem c9_counterexample :
    resolveNextS "1.0.0" ["v1.0.0-bscotch.3.x"] =
      .ok ("1.0.0-bscotch.4.x", "v1.0.0-bscotch.4.x") ∧
    specClaimedTagForm "1.0.0".data "v1.0.0-bscotch.4.x".data = false :=
  ⟨rfl, rfl⟩

end BscotchRelease

namespace BscotchRelease

lemma maxVersion_error {l : List (List Char)} {e : Err} (h : maxVersion l = .error e) :
    e = .invalidTagFormat := by
  match l with
  | [] => simp [maxVersion] at h
  | [v] => simp [maxVersion] at h
  | v :: w :: vs =>
    simp only [maxVersion] at h
    split at h
    · simp at h
    · exact (Except.error.inj h).symm

lemma maxVersion_error_of {l : List (List Char)} {t : List Char} (hlen : 2 ≤ l.length)
    (ht : t ∈ l) (hp : parseSemVer t = none) :
    maxVersion l = .error .invalidTagFormat := by
  match l, hlen with
  | v :: w :: vs, _ =>
    simp only [maxVersion]
    rw [if_neg]
    intro hall
    have h1 := List.all_eq_true.mp hall t ht
    rw [hp] at h1
    simp at h1

/-- Claim C5, amended: tags that do not match the glob pattern `v*-bscotch.*`
never influence the result — the resolution depends on the tag set only
through its glob-matching sublist.  (Tags outside the active family that do
match the pattern can change the result, as the counterexample shows.) -/
theorem c5_amended (base : List Char) (tags tags' : List (List Char))
    (h : tags.filter globMatch = tags'.filter globMatch) :
    resolveNext base tags = resolveNext base tags' := by
  unfold resolveNext getMaxMatchingTag getMatchingTags
  rw [h]

/-- Witness for `c5_amended`: removing the non-matching tag `docs-tag` does
not change the result. -/
theorem c5_amended_witness :
    resolveNext "1.0.0".data ["v1.0.0-bscotch.3".data, "docs-tag".data] =
      resolveNext "1.0.0".data ["v1.0.0-bscotch.3".data] :=
  c5_amended "1.0.0".data _ _ (by decide)

/-- Claim C10: the result depends on the tag set only through the value of
`getMaxMatchingTag` — the semver-maximum of the glob-matching tags (`none`
when absent): two tag sets with the same maximum get identical results for
the same base version. -/
theorem c10_factoring (base : List Char) (tagsA tagsB : List (List Char))
    (h : getMaxMatchingTag tagsA = getMaxMatchingTag tagsB) :
    resolveNext base tagsA = resolveNext base tagsB := by
  unfold resolveNext
  rw [h]

/-- Witness for `c10_factoring`: dropping a family tag below the maximum
leaves the result unchanged. -/
theorem c10_factoring_witness :
    resolveNext "1.0.0".data ["v1.0.0-bscotch.0".data, "v1.0.0-bscotch.1".data] =
      resolveNext "1.0.0".data ["v1.0.0-bscotch.1".data] :=
  c10_factoring "1.0.0".data _ _ rfl

/-- Claim C7, amended: the resolution fails with `InvalidVersionFormat` iff
the selected `latestTag` (the maximal matching tag or the synthetic fallback
`v<base>-bscotch.0`) does not parse as a semantic version — a condition on
the anchor string, not on base-version validity alone: a base version with a
prerelease segment can still succeed, and a syntactically invalid base only
fails when the fallback string it produces is itself invalid.  In
particular, base version `"1.0"` (missing patch segment) with no tags fails
with `InvalidVersionFormat` and produces no result tag. -/
theorem c7_amended :
    (∀ (base : List Char) (tags : List (List Char)),
      resolveNext base tags = .error .invalidVersionFormat ↔
        ∃ d t, latestTagOf base tags = .ok (d, t) ∧ parseSemVer t = none) ∧
    resolveNextS "1.0" [] = .error .invalidVersionFormat := by
  refine ⟨fun base tags => ?_, rfl⟩
  unfold resolveNext resolveFromMax latestTagOf
  cases h : getMaxMatchingTag tags with
  | error e =>
    have he := maxVersion_error (l := getMatchingTags tags) h
    subst he
    simp
  | ok r =>
    cases r with
    | none =>
      cases hp : parseSemVer (defaultTag base) <;> simp [hp]
    | some m =>
      by_cases hs : startsWithL (basePrefix base) m = true
      · simp only [hs, if_pos]
        cases hp : parseSemVer m <;> simp [hp]
      · simp only [Bool.not_eq_true] at hs
        simp only [hs, Bool.false_eq_true, if_false]
        cases hp : parseSemVer (defaultTag base) <;> simp [hp]

/-- Claim C8, amended: an unparsable tag causes `InvalidTagFormat` exactly
when it matches the glob `v*-bscotch.*` and at least one other tag matches
too (the sort comparator then throws on it) — membership in the
marker-and-base-version family is irrelevant; tags not matching the glob are
silently ignored. -/
theorem c8_amended (base : List Char) (tags : List (List Char))
    (hlen : 2 ≤ (tags.filter globMatch).length)
    (hbad : ∃ t ∈ tags.filter globMatch, parseSemVer t = none) :
    resolveNext base tags = .error .invalidTagFormat := by
  obtain ⟨t, ht, hp⟩ := hbad
  unfold resolveNext getMaxMatchingTag getMatchingTags
  rw [maxVersion_error_of hlen ht hp]
  rfl

/-- Witness for `c8_amended`: the unparsable glob-matching tag
`v1.0-bscotch.7` next to a second matching tag crashes the resolution. -/
theorem c8_amended_witness :
    resolveNext "2.0.0".data ["v1.0-bscotch.7".data, "v2.0.0-bscotch.0".data] =
      .error .invalidTagFormat :=
  c8_amended "2.0.0".data _ (by decide) ⟨"v1.0-bscotch.7".data, by decide, rfl⟩

end BscotchRelease

namespace BscotchRelease

lemma mapO_isSome_iff {α β : Type} (f : α → Option β) (l : List α) :
    (mapO f l).isSome = true ↔ ∀ a ∈ l, (f a).isSome = true := by
  induction l with
  | nil => simp [mapO]
  | cons a l ih =>
    simp only [mapO, List.mem_cons]
    cases hfa : f a <;> cases hml : mapO f l <;> simp_all

lemma splitAll_ne_nil (c : Char) (s : List Char) : splitAll c s ≠ [] := by
  cases s with
  | nil => simp [splitAll]
  | cons a rest =>
    simp only [splitAll]
    by_cases hac : a = c
    · simp [hac]
    · simp only [if_neg hac]
      cases h : splitAll c rest <;> simp

lemma splitAll_cons_self (c : Char) (s : List Char) :
    splitAll c (c :: s) = [] :: splitAll c s := by
  simp [splitAll]

lemma splitAll_cons_ne {a c : Char} (h : a ≠ c) (s : List Char) {p : List Char}
    {ps : List (List Char)} (hs : splitAll c s = p :: ps) :
    splitAll c (a :: s) = (a :: p) :: ps := by
  simp only [splitAll, if_neg h, hs]

/-- Concatenate two part-lists, merging the last part of the first with the
first part of the second (the way `splitAll` treats an append). -/
def endMerge : List (List Char) → List (List Char) → List (List Char)
  | [], qs => qs
  | [p], [] => [p]
  | [p], q :: qs => (p ++ q) :: qs
  | p :: p2 :: ps, qs => p :: endMerge (p2 :: ps) qs

lemma splitAll_append (c : Char) (xs ys : List Char) :
    splitAll c (xs ++ ys) = endMerge (splitAll c xs) (splitAll c ys) := by
  induction xs with
  | nil =>
    obtain ⟨q, qs, hq⟩ : ∃ q qs, splitAll c ys = q :: qs := by
      cases h : splitAll c ys with
      | nil => exact absurd h (splitAll_ne_nil c ys)
      | cons q qs => exact ⟨q, qs, rfl⟩
    simp [splitAll, hq, endMerge]
  | cons a xs ih =>
    by_cases hac : a = c
    · subst hac
      rw [List.cons_append, splitAll_cons_self, splitAll_cons_self, ih]
      obtain ⟨p, ps, hp⟩ : ∃ p ps, splitAll a xs = p :: ps := by
        cases h : splitAll a xs with
        | nil => exact absurd h (splitAll_ne_nil a xs)
        | cons p ps => exact ⟨p, ps, rfl⟩
      rw [hp]
      rfl
    · obtain ⟨p, ps, hp⟩ : ∃ p ps, splitAll c xs = p :: ps := by
        cases h : splitAll c xs with
        | nil => exact absurd h (splitAll_ne_nil c xs)
        | cons p ps => exact ⟨p, ps, rfl⟩
      obtain ⟨r, rs, hr⟩ : ∃ r rs, splitAll c (xs ++ ys) = r :: rs := by
        cases h : splitAll c (xs ++ ys) with
        | nil => exact absurd h (splitAll_ne_nil c _)
        | cons r rs => exact ⟨r, rs, rfl⟩
      rw [List.cons_append, splitAll_cons_ne hac _ hr, splitAll_cons_ne hac _ hp]
      rw [hp, hr] at ih
      cases ps with
      | nil =>
        obtain ⟨q, qs, hq⟩ : ∃ q qs, splitAll c ys = q :: qs := by
          cases h : splitAll c ys with
          | nil => exact absurd h (splitAll_ne_nil c ys)
          | cons q qs => exact ⟨q, qs, rfl⟩
        rw [hq] at ih ⊢
        simp only [endMerge] at ih ⊢
        obtain ⟨h1, h2⟩ := List.cons.inj ih
        subst h1 h2
        rfl
      | cons p2 ps' =>
        simp only [endMerge] at ih ⊢
        obtain ⟨h1, h2⟩ := List.cons.inj ih
        subst h1 h2
        rfl

lemma splitAll_no_sep {c : Char} : ∀ {s : List Char}, c ∉ s → splitAll c s = [s]
  | [], _ => rfl
  | a :: rest, h => by
    have hac : a ≠ c := fun hh => h (hh ▸ List.mem_cons_self a rest)
    have hrest : c ∉ rest := fun hh => h (List.mem_cons_of_mem a hh)
    rw [splitAll_cons_ne hac rest (splitAll_no_sep hrest)]

lemma splitFirst_cons_ne {a c : Char} (h : a ≠ c) (s : List Char) :
    splitFirst c (a :: s) = (a :: (splitFirst c s).1, (splitFirst c s).2) := by
  simp only [splitFirst, if_neg h]

lemma joinWith_splitAll (c : Char) (s : List Char) : joinWith c (splitAll c s) = s := by
  induction s with
  | nil => rfl
  | cons a rest ih =>
    obtain ⟨p, ps, hp⟩ : ∃ p ps, splitAll c rest = p :: ps := by
      cases h : splitAll c rest with
      | nil => exact absurd h (splitAll_ne_nil c rest)
      | cons p ps => exact ⟨p, ps, rfl⟩
    rw [hp] at ih
    by_cases hac : a = c
    · subst hac
      rw [splitAll_cons_self, hp]
      simp only [joinWith]
      rw [List.nil_append, ih]
    · rw [splitAll_cons_ne hac rest hp]
      cases ps with
      | nil =>
        simp only [joinWith] at ih ⊢
        rw [ih]
      | cons p2 ps2 =>
        simp only [joinWith] at ih ⊢
        rw [List.cons_append, ih]

lemma splitAll_join (c : Char) : ∀ (parts : List (List Char)), parts ≠ [] →
    (∀ p ∈ parts, c ∉ p) → splitAll c (joinWith c parts) = parts
  | [], h, _ => absurd rfl h
  | [p], _, hall => by
    simp only [joinWith]
    exact splitAll_no_sep (hall p (List.mem_singleton.mpr rfl))
  | p :: p2 :: ps, _, hall => by
    simp only [joinWith]
    rw [splitAll_append, splitAll_no_sep (hall p (List.mem_cons_self p _)),
      splitAll_cons_self,
      splitAll_join c (p2 :: ps) (by simp) (fun q hq => hall q (List.mem_cons_of_mem p hq))]
    simp [endMerge]

lemma splitFirst_cons_self (c : Char) (s : List Char) : splitFirst c (c :: s) = ([], some s) := by
  simp [splitFirst]

lemma splitFirst_append {c : Char} : ∀ {l : List Char}, c ∉ l → ∀ s : List Char,
    splitFirst c (l ++ s) = (l ++ (splitFirst c s).1, (splitFirst c s).2)
  | [], _, s => by simp
  | a :: l, h, s => by
    have hac : a ≠ c := fun hh => h (hh ▸ List.mem_cons_self a l)
    have hl : c ∉ l := fun hh => h (List.mem_cons_of_mem a hh)
    rw [List.cons_append, splitFirst_cons_ne hac, splitFirst_append hl s]
    simp

lemma splitFirst_no {c : Char} {l : List Char} (h : c ∉ l) : splitFirst c l = (l, none) := by
  have := splitFirst_append h []
  simpa [splitFirst] using this

lemma splitFirst_mk {c : Char} {l : List Char} (h : c ∉ l) (r : List Char) :
    splitFirst c (l ++ c :: r) = (l, some r) := by
  rw [splitFirst_append h, splitFirst_cons_self]
  simp

lemma splitFirst_spec (c : Char) : ∀ s : List Char,
    c ∉ (splitFirst c s).1 ∧
    s = (splitFirst c s).1 ++ (match (splitFirst c s).2 with | none => [] | some r => c :: r)
  | [] => by simp [splitFirst]
  | a :: rest => by
    by_cases hac : a = c
    · subst hac
      rw [splitFirst_cons_self]
      simp
    · obtain ⟨ih1, ih2⟩ := splitFirst_spec c rest
      rw [splitFirst_cons_ne hac]
      constructor
      · intro hmem
        rcases List.mem_cons.mp hmem with hh | hh
        · exact hac hh.symm
        · exact ih1 hh
      · rw [List.cons_append]
        exact congrArg (a :: ·) ih2

lemma isIdChar_ne_dot {c : Char} (h : isIdChar c = true) : c ≠ '.' := by
  rintro rfl
  revert h
  decide

lemma isIdChar_ne_plus {c : Char} (h : isIdChar c = true) : c ≠ '+' := by
  rintro rfl
  revert h
  decide

lemma isDigitC_isIdChar {c : Char} (h : isDigitC c = true) : isIdChar c = true := by
  simp [isIdChar, h]

lemma isDigitC_ne {c : Char} (h : isDigitC c = true) :
    c ≠ '.' ∧ c ≠ '-' ∧ c ≠ '+' ∧ c ≠ 'v' := by
  refine ⟨?_, ?_, ?_, ?_⟩ <;> rintro rfl <;> revert h <;> decide

end BscotchRelease

namespace BscotchRelease

lemma digitsFuel_eq : ∀ (fuel n : Nat), n ≤ fuel → digitsFuel fuel n = Nat.digits 10 n
  | 0, 0, _ => by simp [digitsFuel]
  | 0, _ + 1, h => by omega
  | _ + 1, 0, _ => by simp [digitsFuel]
  | fuel + 1, n + 1, h => by
    rw [digitsFuel, Nat.digits_def' (by norm_num : (1 : Nat) < 10) (Nat.succ_pos n)]
    congr 1
    have hlt : (n + 1) / 10 < n + 1 := Nat.div_lt_self (Nat.succ_pos n) (by norm_num)
    exact digitsFuel_eq fuel ((n + 1) / 10) (by omega)

lemma digitChar_isDigitC {d : Nat} (h : d < 10) : isDigitC (digitChar d) = true := by
  interval_cases d <;> decide

lemma digitVal_digitChar {d : Nat} (h : d < 10) : digitVal (digitChar d) = d := by
  interval_cases d <;> decide

lemma isDigitC_bounds {c : Char} (h : isDigitC c = true) : 48 ≤ c.toNat ∧ c.toNat ≤ 57 := by
  simpa [isDigitC] using h

lemma digitChar_digitVal {c : Char} (h : isDigitC c = true) : digitChar (digitVal c) = c := by
  obtain ⟨h1, h2⟩ := isDigitC_bounds h
  have h3 : 48 + (c.toNat - 48) = c.toNat := by omega
  rw [digitChar, digitVal, h3, Char.ofNat_toNat]

lemma digitVal_lt {c : Char} (h : isDigitC c = true) : digitVal c < 10 := by
  obtain ⟨h1, h2⟩ := isDigitC_bounds h
  simp only [digitVal]
  omega

lemma digitVal_ne_zero {c : Char} (h : isDigitC c = true) (h0 : c ≠ '0') : digitVal c ≠ 0 := by
  intro hv
  apply h0
  have := digitChar_digitVal h
  rw [hv] at this
  exact this.symm

lemma charsToNat_append_singleton (cs : List Char) (c : Char) :
    charsToNat (cs ++ [c]) = 10 * charsToNat cs + digitVal c := by
  simp [charsToNat, List.foldl_append]

lemma charsToNat_eq_ofDigits (cs : List Char) :
    charsToNat cs = Nat.ofDigits 10 ((cs.map digitVal).reverse) := by
  induction cs using List.reverseRecOn with
  | nil => simp [charsToNat, Nat.ofDigits]
  | append_singleton cs c ih =>
    rw [charsToNat_append_singleton, ih]
    simp only [List.map_append, List.map_cons, List.map_nil, List.reverse_append,
      List.reverse_cons, List.reverse_nil, List.nil_append, List.singleton_append,
      List.cons_append, Nat.ofDigits_cons]
    omega

lemma natToCanon_pos (n : Nat) (h : n ≠ 0) :
    natToCanon n = ((Nat.digits 10 n).reverse).map digitChar := by
  cases n with
  | zero => exact absurd rfl h
  | succ m =>
    show ((digitsFuel (m + 1) (m + 1)).reverse).map digitChar = _
    rw [digitsFuel_eq (m + 1) (m + 1) le_rfl]

lemma natToCanon_all_digits (n : Nat) : (natToCanon n).all isDigitC = true := by
  cases n with
  | zero => decide
  | succ m =>
    rw [natToCanon_pos _ (Nat.succ_ne_zero m), List.all_eq_true]
    intro c hc
    simp only [List.mem_map, List.mem_reverse] at hc
    obtain ⟨d, hd, rfl⟩ := hc
    exact digitChar_isDigitC (Nat.digits_lt_base (by norm_num) hd)

lemma natToCanon_ne_nil (n : Nat) : natToCanon n ≠ [] := by
  cases n with
  | zero => decide
  | succ m =>
    rw [natToCanon_pos _ (Nat.succ_ne_zero m)]
    simp only [ne_eq, List.map_eq_nil_iff, List.reverse_eq_nil_iff]
    exact Nat.digits_ne_nil_iff_ne_zero.mpr (Nat.succ_ne_zero m)

lemma natToCanon_head (n : Nat) (h : n ≠ 0) : (natToCanon n).head? ≠ some '0' := by
  rw [natToCanon_pos _ h]
  have hne : Nat.digits 10 n ≠ [] := Nat.digits_ne_nil_iff_ne_zero.mpr h
  rw [List.head?_map, List.head?_reverse]
  rw [List.getLast?_eq_getLast _ hne]
  intro hc
  simp only [Option.map_some', Option.some.injEq] at hc
  have hlt : (Nat.digits 10 n).getLast hne < 10 :=
    Nat.digits_lt_base (by norm_num) (List.getLast_mem hne)
  have hne0 : (Nat.digits 10 n).getLast hne ≠ 0 := Nat.getLast_digit_ne_zero 10 h
  have h1 := digitVal_digitChar hlt
  rw [hc] at h1
  have h2 : digitVal '0' = 0 := by decide
  rw [h2] at h1
  exact hne0 h1.symm

lemma canonicalNum_iff (cs : List Char) : canonicalNum cs = true ↔
    cs ≠ [] ∧ cs.all isDigitC = true ∧ (cs = ['0'] ∨ cs.head? ≠ some '0') := by
  match cs with
  | [] => simp [canonicalNum]
  | [c] =>
    by_cases hc : c = '0'
    · subst hc
      simp [canonicalNum]
    · simp [canonicalNum, hc]
  | c :: d :: rest =>
    by_cases hc : c = '0'
    · subst hc
      simp [canonicalNum]
    · simp [canonicalNum, hc, Bool.and_assoc]

lemma canonicalNum_natToCanon (n : Nat) : canonicalNum (natToCanon n) = true := by
  rw [canonicalNum_iff]
  refine ⟨natToCanon_ne_nil n, natToCanon_all_digits n, ?_⟩
  cases n with
  | zero => left; decide
  | succ m => right; exact natToCanon_head _ (Nat.succ_ne_zero m)

lemma charsToNat_natToCanon (n : Nat) : charsToNat (natToCanon n) = n := by
  cases n with
  | zero => decide
  | succ m =>
    rw [natToCanon_pos _ (Nat.succ_ne_zero m), charsToNat_eq_ofDigits, List.map_map]
    have hcongr :
        (Nat.digits 10 (m + 1)).reverse.map (digitVal ∘ digitChar) =
          (Nat.digits 10 (m + 1)).reverse.map id := by
      apply List.map_congr_left
      intro d hd
      simp only [Function.comp_apply, id_eq]
      exact digitVal_digitChar (Nat.digits_lt_base (by norm_num) (List.mem_reverse.mp hd))
    rw [hcongr, List.map_id, List.reverse_reverse, Nat.ofDigits_digits]

lemma natToCanon_charsToNat {cs : List Char} (h : canonicalNum cs = true) :
    natToCanon (charsToNat cs) = cs := by
  rw [canonicalNum_iff] at h
  obtain ⟨hne, hdig, hcanon⟩ := h
  have hdig' : ∀ c ∈ cs, isDigitC c = true := List.all_eq_true.mp hdig
  rcases hcanon with rfl | hhead
  · decide
  · obtain ⟨c0, cs', rfl⟩ : ∃ c0 cs', cs = c0 :: cs' := by
      cases cs with
      | nil => exact absurd rfl hne
      | cons c0 cs' => exact ⟨c0, cs', rfl⟩
    have hc0 : c0 ≠ '0' := fun hh => hhead (by rw [hh]; rfl)
    set L : List Nat := ((c0 :: cs').map digitVal).reverse with hL
    have hLne : L ≠ [] := by simp [hL]
    have hmem : ∀ d ∈ L, d < 10 := by
      intro d hd
      rw [hL, List.mem_reverse, List.mem_map] at hd
      obtain ⟨c, hc, rfl⟩ := hd
      exact digitVal_lt (hdig' c hc)
    have hlast : ∀ (hh : L ≠ []), L.getLast hh ≠ 0 := by
      intro hh
      have h1 : L.getLast? = some (digitVal c0) := by
        rw [hL, List.getLast?_reverse, List.head?_map]
        rfl
      rw [List.getLast?_eq_getLast _ hh, Option.some.injEq] at h1
      rw [h1]
      exact digitVal_ne_zero (hdig' c0 (List.mem_cons_self c0 cs')) hc0
    have hofd : Nat.digits 10 (Nat.ofDigits 10 L) = L :=
      Nat.digits_ofDigits 10 (by norm_num) L hmem hlast
    have hn0 : Nat.ofDigits 10 L ≠ 0 := by
      intro h0
      rw [h0, Nat.digits_zero] at hofd
      exact hLne hofd.symm
    rw [charsToNat_eq_ofDigits, ← hL, natToCanon_pos _ hn0, hofd, hL,
      List.reverse_reverse, List.map_map]
    have hcongr :
        (c0 :: cs').map (digitChar ∘ digitVal) = (c0 :: cs').map id := by
      apply List.map_congr_left
      intro c hc
      simp only [Function.comp_apply, id_eq]
      exact digitChar_digitVal (hdig' c hc)
    rw [hcongr, List.map_id]

lemma parseNumId_natToCanon (n : Nat) : parseNumId (natToCanon n) = some n := by
  rw [parseNumId, if_pos (canonicalNum_natToCanon n), charsToNat_natToCanon]

lemma parseNumId_inv {cs : List Char} {n : Nat} (h : parseNumId cs = some n) :
    cs = natToCanon n := by
  rw [parseNumId] at h
  by_cases hc : canonicalNum cs = true
  · rw [if_pos hc, Option.some.injEq] at h
    rw [← h, natToCanon_charsToNat hc]
  · rw [if_neg hc] at h
    cases h

end BscotchRelease

namespace BscotchRelease

/-- Well-formedness of a prerelease identifier as produced by the parser. -/
def wfId : PreId → Prop
  | .num _ => True
  | .str s => s ≠ [] ∧ s.all isIdChar = true ∧ s.all isDigitC = false

lemma parsePreId_wf {cs : List Char} {id : PreId} (h : parsePreId cs = some id) : wfId id := by
  rw [parsePreId] at h
  by_cases h0 : cs = []
  · rw [if_pos h0] at h; cases h
  · rw [if_neg h0] at h
    by_cases h1 : cs.all isIdChar = true
    · rw [if_pos h1] at h
      by_cases h2 : cs.all isDigitC = true
      · rw [if_pos h2] at h
        by_cases h3 : canonicalNum cs = true
        · rw [if_pos h3, Option.some.injEq] at h
          rw [← h]
          trivial
        · rw [if_neg h3] at h; cases h
      · rw [if_neg h2, Option.some.injEq] at h
        rw [← h]
        exact ⟨h0, h1, Bool.eq_false_iff.mpr h2⟩
    · rw [if_neg h1] at h; cases h

lemma parsePreId_inv {cs : List Char} {id : PreId} (h : parsePreId cs = some id) :
    renderId id = cs := by
  rw [parsePreId] at h
  by_cases h0 : cs = []
  · rw [if_pos h0] at h; cases h
  · rw [if_neg h0] at h
    by_cases h1 : cs.all isIdChar = true
    · rw [if_pos h1] at h
      by_cases h2 : cs.all isDigitC = true
      · rw [if_pos h2] at h
        by_cases h3 : canonicalNum cs = true
        · rw [if_pos h3, Option.some.injEq] at h
          rw [← h, renderId, natToCanon_charsToNat h3]
        · rw [if_neg h3] at h; cases h
      · rw [if_neg h2, Option.some.injEq] at h
        rw [← h]
        rfl
    · rw [if_neg h1] at h; cases h

lemma all_isIdChar_of_digits {cs : List Char} (h : cs.all isDigitC = true) :
    cs.all isIdChar = true := by
  rw [List.all_eq_true] at h ⊢
  exact fun c hc => isDigitC_isIdChar (h c hc)

lemma parsePreId_render {id : PreId} (h : wfId id) : parsePreId (renderId id) = some id := by
  cases id with
  | num n =>
    rw [renderId, parsePreId, if_neg (natToCanon_ne_nil n),
      if_pos (all_isIdChar_of_digits (natToCanon_all_digits n)),
      if_pos (natToCanon_all_digits n), if_pos (canonicalNum_natToCanon n),
      charsToNat_natToCanon]
  | str s =>
    obtain ⟨h0, h1, h2⟩ := h
    rw [renderId, parsePreId, if_neg h0, if_pos h1, h2]
    rfl

lemma renderId_ne_nil {id : PreId} (h : wfId id) : renderId id ≠ [] := by
  cases id with
  | num n => exact natToCanon_ne_nil n
  | str s => exact h.1

lemma renderId_no_dot {id : PreId} (h : wfId id) : '.' ∉ renderId id := by
  cases id with
  | num n =>
    intro hmem
    have := List.all_eq_true.mp (natToCanon_all_digits n) _ hmem
    exact (isDigitC_ne this).1 rfl
  | str s =>
    intro hmem
    have := List.all_eq_true.mp h.2.1 _ hmem
    exact isIdChar_ne_dot this rfl

lemma renderId_no_plus {id : PreId} (h : wfId id) : '+' ∉ renderId id := by
  cases id with
  | num n =>
    intro hmem
    have := List.all_eq_true.mp (natToCanon_all_digits n) _ hmem
    exact (isDigitC_ne this).2.2.1 rfl
  | str s =>
    intro hmem
    have := List.all_eq_true.mp h.2.1 _ hmem
    exact isIdChar_ne_plus this rfl

lemma mapO_eq_some_nil {α β : Type} {f : α → Option β} :
    ∀ {l : List α}, mapO f l = some [] → l = []
  | [], _ => rfl
  | a :: l, h => by
    rw [mapO] at h
    cases hfa : f a <;> rw [hfa] at h
    · cases h
    · cases hml : mapO f l <;> rw [hml] at h
      · cases h
      · simp at h

lemma mapO_inv {α β : Type} {f : α → Option β} {g : β → α}
    (hfg : ∀ a b, f a = some b → g b = a) :
    ∀ {l : List α} {bs : List β}, mapO f l = some bs → l = bs.map g
  | [], bs, h => by
    rw [mapO, Option.some.injEq] at h
    rw [← h]
    rfl
  | a :: l, bs, h => by
    rw [mapO] at h
    cases hfa : f a <;> rw [hfa] at h
    · cases h
    · cases hml : mapO f l <;> rw [hml] at h
      · cases h
      · rename_i b bs'
        rw [Option.some.injEq] at h
        rw [← h, List.map_cons, hfg a b hfa, ← mapO_inv hfg hml]

lemma mapO_forall {α β : Type} {f : α → Option β} {P : β → Prop}
    (hP : ∀ a b, f a = some b → P b) :
    ∀ {l : List α} {bs : List β}, mapO f l = some bs → ∀ b ∈ bs, P b
  | [], bs, h => by
    rw [mapO, Option.some.injEq] at h
    rw [← h]
    intro b hb
    cases hb
  | a :: l, bs, h => by
    rw [mapO] at h
    cases hfa : f a <;> rw [hfa] at h
    · cases h
    · cases hml : mapO f l <;> rw [hml] at h
      · cases h
      · rename_i b bs'
        rw [Option.some.injEq] at h
        rw [← h]
        intro x hx
        rcases List.mem_cons.mp hx with rfl | hx
        · exact hP a x hfa
        · exact mapO_forall hP hml x hx

lemma mapO_of_render {α β : Type} {f : α → Option β} {g : β → α} :
    ∀ {bs : List β}, (∀ b ∈ bs, f (g b) = some b) → mapO f (bs.map g) = some bs
  | [], _ => rfl
  | b :: bs, h => by
    rw [List.map_cons, mapO, h b (List.mem_cons_self b bs),
      mapO_of_render (fun x hx => h x (List.mem_cons_of_mem b hx))]

lemma parsePre_ne_nil {p : List Char} {ids : List PreId} (h : parsePre p = some ids) :
    ids ≠ [] := by
  intro hnil
  rw [hnil] at h
  exact splitAll_ne_nil '.' p (mapO_eq_some_nil h)

lemma parsePre_wf {p : List Char} {ids : List PreId} (h : parsePre p = some ids) :
    ∀ id ∈ ids, wfId id :=
  mapO_forall (fun _ _ hab => parsePreId_wf hab) h

lemma parsePre_inv {p : List Char} {ids : List PreId} (h : parsePre p = some ids) :
    p = renderPre ids := by
  have h1 : splitAll '.' p = ids.map renderId :=
    mapO_inv (fun _ _ hab => parsePreId_inv hab) h
  have h2 := joinWith_splitAll '.' p
  rw [h1] at h2
  rw [renderPre, h2]

lemma parsePre_render {ids : List PreId} (hwf : ∀ id ∈ ids, wfId id) (hne : ids ≠ []) :
    parsePre (renderPre ids) = some ids := by
  rw [parsePre, renderPre, splitAll_join '.' (ids.map renderId)
    (by simpa using hne)
    (by
      intro q hq
      rw [List.mem_map] at hq
      obtain ⟨id, hid, rfl⟩ := hq
      exact renderId_no_dot (hwf id hid))]
  exact mapO_of_render (fun id hid => parsePreId_render (hwf id hid))

lemma natToCanon_no_dot (n : Nat) : '.' ∉ natToCanon n := by
  intro hmem
  have := List.all_eq_true.mp (natToCanon_all_digits n) _ hmem
  exact (isDigitC_ne this).1 rfl

lemma natToCanon_no_dash (n : Nat) : '-' ∉ natToCanon n := by
  intro hmem
  have := List.all_eq_true.mp (natToCanon_all_digits n) _ hmem
  exact (isDigitC_ne this).2.1 rfl

lemma natToCanon_no_plus (n : Nat) : '+' ∉ natToCanon n := by
  intro hmem
  have := List.all_eq_true.mp (natToCanon_all_digits n) _ hmem
  exact (isDigitC_ne this).2.2.1 rfl

lemma renderMain_eq_join (x y z : Nat) :
    renderMain x y z = joinWith '.' [natToCanon x, natToCanon y, natToCanon z] := rfl

lemma renderMain_no_dash (x y z : Nat) : '-' ∉ renderMain x y z := by
  intro hmem
  simp only [renderMain, List.mem_append, List.mem_cons] at hmem
  rcases hmem with h | h | h | h | h
  · exact natToCanon_no_dash x h
  · exact absurd h (by decide)
  · exact natToCanon_no_dash y h
  · exact absurd h (by decide)
  · exact natToCanon_no_dash z h

lemma renderMain_no_plus (x y z : Nat) : '+' ∉ renderMain x y z := by
  intro hmem
  simp only [renderMain, List.mem_append, List.mem_cons] at hmem
  rcases hmem with h | h | h | h | h
  · exact natToCanon_no_plus x h
  · exact absurd h (by decide)
  · exact natToCanon_no_plus y h
  · exact absurd h (by decide)
  · exact natToCanon_no_plus z h

lemma parseMain_render (x y z : Nat) : parseMain (renderMain x y z) = some (x, y, z) := by
  rw [parseMain, renderMain_eq_join, splitAll_join '.' _ (by simp)
    (by
      intro q hq
      simp only [List.mem_cons, List.not_mem_nil, or_false] at hq
      rcases hq with rfl | rfl | rfl <;> exact natToCanon_no_dot _)]
  simp only [parseMain3, parseNumId_natToCanon]

lemma parseMain3_eq_some : ∀ {parts : List (List Char)} {x y z : Nat},
    parseMain3 parts = some (x, y, z) →
    ∃ a b c, parts = [a, b, c] ∧ parseNumId a = some x ∧ parseNumId b = some y ∧
      parseNumId c = some z
  | [], _, _, _, h => by simp [parseMain3] at h
  | [_], _, _, _, h => by simp [parseMain3] at h
  | [_, _], _, _, _, h => by simp [parseMain3] at h
  | _ :: _ :: _ :: _ :: _ :: _, _, _, _, h => by simp [parseMain3] at h
  | [a, b, c], x, y, z, h => by
    refine ⟨a, b, c, rfl, ?_⟩
    simp only [parseMain3] at h
    rcases ha : parseNumId a with _ | xa <;> rw [ha] at h
    · simp at h
    rcases hb : parseNumId b with _ | yb <;> rw [hb] at h
    · simp at h
    rcases hc : parseNumId c with _ | zc <;> rw [hc] at h
    · simp at h
    simp only [Option.some.injEq, Prod.mk.injEq] at h
    obtain ⟨rfl, rfl, rfl⟩ := h
    exact ⟨rfl, rfl, rfl⟩

lemma parseMain_inv {cs : List Char} {x y z : Nat} (h : parseMain cs = some (x, y, z)) :
    cs = renderMain x y z := by
  rw [parseMain] at h
  obtain ⟨a, b, c, hsp, ha, hb, hc⟩ := parseMain3_eq_some h
  have h2 := joinWith_splitAll '.' cs
  rw [hsp] at h2
  rw [← h2, parseNumId_inv ha, parseNumId_inv hb, parseNumId_inv hc]
  exact (renderMain_eq_join x y z).symm

end BscotchRelease

namespace BscotchRelease

lemma mem_joinWith {x c : Char} : ∀ {parts : List (List Char)},
    x ∈ joinWith c parts → x = c ∨ ∃ p ∈ parts, x ∈ p
  | [], h => by cases h
  | [p], h => Or.inr ⟨p, by simp, by simpa [joinWith] using h⟩
  | p :: p2 :: ps, h => by
    simp only [joinWith, List.mem_append, List.mem_cons] at h
    rcases h with h | h | h
    · exact Or.inr ⟨p, by simp, h⟩
    · exact Or.inl h
    · rcases mem_joinWith h with h | ⟨q, hq, hx⟩
      · exact Or.inl h
      · exact Or.inr ⟨q, List.mem_cons_of_mem p hq, hx⟩

lemma renderPre_no_plus {ids : List PreId} (h : ∀ id ∈ ids, wfId id) :
    '+' ∉ renderPre ids := by
  intro hmem
  rcases mem_joinWith hmem with hh | ⟨p, hp, hx⟩
  · exact absurd hh (by decide)
  · rw [List.mem_map] at hp
    obtain ⟨id, hid, rfl⟩ := hp
    exact renderId_no_plus (h id hid) hx

lemma renderSemVer_no_plus {v : SemVer} (h : ∀ id ∈ v.prerelease, wfId id) :
    '+' ∉ renderSemVer v := by
  intro hmem
  rw [renderSemVer] at hmem
  rcases List.mem_append.mp hmem with hh | hh
  · exact renderMain_no_plus _ _ _ hh
  · by_cases hp : v.prerelease = []
    · rw [if_pos hp] at hh
      cases hh
    · rw [if_neg hp] at hh
      rcases List.mem_cons.mp hh with hh | hh
      · exact absurd hh (by decide)
      · exact renderPre_no_plus h hh

lemma dropV_cons_v (rest : List Char) : dropV ('v' :: rest) = rest := by
  simp [dropV]

lemma dropV_decomp (s : List Char) :
    ∃ pfx, (pfx = [] ∨ pfx = ['v']) ∧ s = pfx ++ dropV s := by
  cases s with
  | nil => exact ⟨[], Or.inl rfl, rfl⟩
  | cons a rest =>
    by_cases ha : a = 'v'
    · subst ha
      exact ⟨['v'], Or.inr rfl, by rw [dropV_cons_v]; rfl⟩
    · refine ⟨[], Or.inl rfl, ?_⟩
      simp [dropV, ha]

lemma parseBuild_nil : parseBuild ([] : List Char) = none := rfl

lemma parseSemVer_render (v : SemVer) (h : ∀ id ∈ v.prerelease, wfId id) :
    parseSemVer ('v' :: renderSemVer v) =
      some ⟨v.major, v.minor, v.patch, v.prerelease, []⟩ := by
  have h2 : splitFirst '+' (renderSemVer v) = (renderSemVer v, none) :=
    splitFirst_no (renderSemVer_no_plus h)
  by_cases hp : v.prerelease = []
  · have h3 : renderSemVer v = renderMain v.major v.minor v.patch := by
      rw [renderSemVer, if_pos hp, List.append_nil]
    rw [h3] at h2
    simp only [parseSemVer, dropV_cons_v, h3, h2,
      splitFirst_no (renderMain_no_dash v.major v.minor v.patch), parseMain_render, hp]
  · have h3 : renderSemVer v =
        renderMain v.major v.minor v.patch ++ '-' :: renderPre v.prerelease := by
      rw [renderSemVer, if_neg hp]
    rw [h3] at h2
    simp only [parseSemVer, dropV_cons_v, h3, h2,
      splitFirst_mk (renderMain_no_dash v.major v.minor v.patch) (renderPre v.prerelease),
      parseMain_render, parsePre_render h hp]

lemma parseSemVer_decomp {s : List Char} {v : SemVer} (h : parseSemVer s = some v) :
    ∃ pfx bsfx,
      (pfx = [] ∨ pfx = ['v']) ∧
      s = pfx ++ renderSemVer v ++ bsfx ∧
      (bsfx = [] ∨ ∃ bs, bsfx = '+' :: bs ∧ parseBuild bs = some v.build ∧ bs ≠ []) := by
  obtain ⟨pfx, hpfx, hs⟩ := dropV_decomp s
  obtain ⟨hplus1, hplus2⟩ := splitFirst_spec '+' (dropV s)
  rcases hsp : splitFirst '+' (dropV s) with ⟨core, bq⟩
  rw [hsp] at hplus1 hplus2
  obtain ⟨hdash1, hdash2⟩ := splitFirst_spec '-' core
  rcases hsm : splitFirst '-' core with ⟨mainPart, pq⟩
  rw [hsm] at hdash1 hdash2
  simp only at hplus1 hplus2 hdash1 hdash2
  simp only [parseSemVer, hsp, hsm] at h
  rcases hpm : parseMain mainPart with _ | ⟨⟨x, y, z⟩⟩
  · simp [hpm] at h
  simp only [hpm] at h
  have hmain : mainPart = renderMain x y z := parseMain_inv hpm
  rcases pq with _ | p
  · simp only at hdash2
    rw [List.append_nil] at hdash2
    rcases bq with _ | b
    · simp only at hplus2
      rw [List.append_nil] at hplus2
      simp only [Option.some.injEq] at h
      subst h
      have hrs : renderSemVer ⟨x, y, z, [], []⟩ = renderMain x y z := by
        simp [renderSemVer]
      refine ⟨pfx, [], hpfx, ?_, Or.inl rfl⟩
      rw [List.append_nil, hs, hplus2, hdash2, hmain, hrs]
    · rcases hpb : parseBuild b with _ | bld
      · simp [hpb] at h
      · simp only [hpb, Option.some.injEq] at h
        subst h
        have hrs : renderSemVer ⟨x, y, z, [], bld⟩ = renderMain x y z := by
          simp [renderSemVer]
        refine ⟨pfx, '+' :: b, hpfx, ?_, Or.inr ⟨b, rfl, hpb, ?_⟩⟩
        · simp only at hplus2
          rw [hs, hplus2, hdash2, hmain, hrs]
          simp
        · intro hb
          rw [hb, parseBuild_nil] at hpb
          cases hpb
  · rcases hpp : parsePre p with _ | pre
    · simp [hpp] at h
    have hprene : pre ≠ [] := parsePre_ne_nil hpp
    have hpinv : p = renderPre pre := parsePre_inv hpp
    simp only at hdash2
    rcases bq with _ | b
    · simp only at hplus2
      rw [List.append_nil] at hplus2
      simp only [hpp, Option.some.injEq] at h
      subst h
      have hrs : renderSemVer ⟨x, y, z, pre, []⟩ = renderMain x y z ++ '-' :: renderPre pre := by
        simp only [renderSemVer, if_neg hprene]
      refine ⟨pfx, [], hpfx, ?_, Or.inl rfl⟩
      rw [List.append_nil, hs, hplus2, hdash2, hmain, hpinv, hrs]
    · rcases hpb : parseBuild b with _ | bld
      · simp [hpp, hpb] at h
      · simp only [hpp, hpb, Option.some.injEq] at h
        subst h
        have hrs : renderSemVer ⟨x, y, z, pre, bld⟩ =
            renderMain x y z ++ '-' :: renderPre pre := by
          simp only [renderSemVer, if_neg hprene]
        refine ⟨pfx, '+' :: b, hpfx, ?_, Or.inr ⟨b, rfl, hpb, ?_⟩⟩
        · simp only at hplus2
          rw [hs, hplus2, hdash2, hmain, hpinv, hrs]
          simp
        · intro hb
          rw [hb, parseBuild_nil] at hpb
          cases hpb

end BscotchRelease

namespace BscotchRelease

lemma cmpNat_cases (a b : Nat) :
    (a < b ∧ cmpNat a b = .lt) ∨ (a = b ∧ cmpNat a b = .eq) ∨ (b < a ∧ cmpNat a b = .gt) := by
  unfold cmpNat
  rcases Nat.lt_trichotomy a b with h | h | h
  · exact Or.inl ⟨h, by simp [h]⟩
  · subst h
    exact Or.inr (Or.inl ⟨rfl, by simp⟩)
  · refine Or.inr (Or.inr ⟨h, ?_⟩)
    rw [if_neg (by omega), if_pos h]

lemma cmpNat_refl (a : Nat) : cmpNat a a = .eq := by
  simp [cmpNat]

lemma cmpNat_eq {a b : Nat} (h : cmpNat a b = .eq) : a = b := by
  rcases cmpNat_cases a b with ⟨_, e⟩ | ⟨e1, _⟩ | ⟨_, e⟩
  · rw [e] at h; cases h
  · exact e1
  · rw [e] at h; cases h

lemma cmpChars_refl : ∀ s : List Char, cmpChars s s = .eq
  | [] => rfl
  | a :: as => by
    simp only [cmpChars, cmpNat_refl]
    exact cmpChars_refl as

lemma cmpChars_swap : ∀ s t : List Char, cmpChars s t = (cmpChars t s).swap
  | [], [] => rfl
  | [], _ :: _ => rfl
  | _ :: _, [] => rfl
  | a :: as, b :: bs => by
    simp only [cmpChars]
    rcases cmpNat_cases a.toNat b.toNat with ⟨h1, e1⟩ | ⟨h1, e1⟩ | ⟨h1, e1⟩ <;>
      rcases cmpNat_cases b.toNat a.toNat with ⟨h2, e2⟩ | ⟨h2, e2⟩ | ⟨h2, e2⟩ <;>
        rw [e1, e2] <;> first | rfl | omega | exact cmpChars_swap as bs

lemma cmpChars_eq : ∀ {s t : List Char}, cmpChars s t = .eq → s = t
  | [], [], _ => rfl
  | [], _ :: _, h => by cases h
  | _ :: _, [], h => by cases h
  | a :: as, b :: bs, h => by
    simp only [cmpChars] at h
    rcases cmpNat_cases a.toNat b.toNat with ⟨h1, e1⟩ | ⟨h1, e1⟩ | ⟨h1, e1⟩ <;> rw [e1] at h
    · cases h
    · have hab : a = b := by
        have h3 : a.toNat = b.toNat := h1
        have h4 := congrArg Char.ofNat h3
        rwa [Char.ofNat_toNat, Char.ofNat_toNat] at h4
      rw [hab, cmpChars_eq h]
    · cases h

lemma cmpnat_chain_le_trans {x y z : Nat} {r1 r2 r3 : Ordering}
    (h1 : (match cmpNat x y with | .eq => r1 | o => o) ≠ .gt)
    (h2 : (match cmpNat y z with | .eq => r2 | o => o) ≠ .gt)
    (hr : r1 ≠ .gt → r2 ≠ .gt → r3 ≠ .gt) :
    (match cmpNat x z with | .eq => r3 | o => o) ≠ .gt := by
  rcases cmpNat_cases x y with ⟨g1, e1⟩ | ⟨g1, e1⟩ | ⟨g1, e1⟩ <;> rw [e1] at h1 <;>
    rcases cmpNat_cases y z with ⟨g2, e2⟩ | ⟨g2, e2⟩ | ⟨g2, e2⟩ <;> rw [e2] at h2 <;>
      rcases cmpNat_cases x z with ⟨g3, e3⟩ | ⟨g3, e3⟩ | ⟨g3, e3⟩ <;> rw [e3] <;>
        first
          | omega
          | exact hr h1 h2
          | exact absurd rfl h1
          | exact absurd rfl h2
          | simp

lemma cmpChars_le_trans : ∀ {s t u : List Char},
    cmpChars s t ≠ .gt → cmpChars t u ≠ .gt → cmpChars s u ≠ .gt
  | [], _, [], _, _ => by simp [cmpChars]
  | [], _, _ :: _, _, _ => by simp [cmpChars]
  | a :: as, [], u, h1, _ => by simp [cmpChars] at h1
  | a :: as, b :: bs, [], _, h2 => by simp [cmpChars] at h2
  | a :: as, b :: bs, c :: cs, h1, h2 => by
    simp only [cmpChars] at h1 h2 ⊢
    exact cmpnat_chain_le_trans h1 h2 (fun hh1 hh2 => cmpChars_le_trans hh1 hh2)

lemma cmpId_refl (i : PreId) : cmpId i i = .eq := by
  cases i with
  | num n => exact cmpNat_refl n
  | str s => exact cmpChars_refl s

lemma cmpId_swap (i j : PreId) : cmpId i j = (cmpId j i).swap := by
  cases i <;> cases j <;> simp only [cmpId]
  · rcases cmpNat_cases _ _ with ⟨h1, e1⟩ | ⟨h1, e1⟩ | ⟨h1, e1⟩ <;>
      rcases cmpNat_cases _ _ with ⟨h2, e2⟩ | ⟨h2, e2⟩ | ⟨h2, e2⟩ <;>
        rw [e1, e2] <;> first | rfl | omega
  · rfl
  · rfl
  · exact cmpChars_swap _ _

lemma cmpId_eq : ∀ {i j : PreId}, cmpId i j = .eq → i = j
  | .num a, .num b, h => by rw [cmpNat_eq h]
  | .num _, .str _, h => by cases h
  | .str _, .num _, h => by cases h
  | .str a, .str b, h => by rw [cmpChars_eq h]

lemma cmpId_le_trans {i j k : PreId} :
    cmpId i j ≠ .gt → cmpId j k ≠ .gt → cmpId i k ≠ .gt := by
  cases i <;> cases j <;> cases k <;> simp only [cmpId] <;> intro h1 h2
  · rcases cmpNat_cases _ _ with ⟨g1, e1⟩ | ⟨g1, e1⟩ | ⟨g1, e1⟩ <;> rw [e1] at h1 <;>
      rcases cmpNat_cases _ _ with ⟨g2, e2⟩ | ⟨g2, e2⟩ | ⟨g2, e2⟩ <;> rw [e2] at h2 <;>
        rcases cmpNat_cases _ _ with ⟨g3, e3⟩ | ⟨g3, e3⟩ | ⟨g3, e3⟩ <;> rw [e3] <;>
          first
            | omega
            | exact absurd rfl h1
            | exact absurd rfl h2
            | decide
  · decide
  · exact absurd rfl h2
  · decide
  · exact absurd rfl h1
  · exact absurd rfl h1
  · exact absurd rfl h2
  · exact cmpChars_le_trans h1 h2

lemma cmpId_lt_trans {i j k : PreId} (h1 : cmpId i j = .lt) (h2 : cmpId j k = .lt) :
    cmpId i k = .lt := by
  rcases hik : cmpId i k with _ | _ | _
  · rfl
  · exfalso
    rw [cmpId_eq hik] at h1
    have hs := cmpId_swap k j
    rw [h1, h2] at hs
    cases hs
  · exfalso
    have hle := cmpId_le_trans (i := i) (j := j) (k := k) (by simp [h1]) (by simp [h2])
    rw [hik] at hle
    exact hle rfl

lemma cmpIds_refl : ∀ l : List PreId, cmpIds l l = .eq
  | [] => rfl
  | i :: l => by
    simp only [cmpIds, cmpId_refl]
    exact cmpIds_refl l

lemma cmpIds_swap : ∀ l m : List PreId, cmpIds l m = (cmpIds m l).swap
  | [], [] => rfl
  | [], _ :: _ => rfl
  | _ :: _, [] => rfl
  | i :: l, j :: m => by
    have hsw := cmpId_swap i j
    have htail := cmpIds_swap l m
    simp only [cmpIds, hsw]
    cases cmpId j i <;> simp [Ordering.swap, htail]

lemma cmpIds_eq : ∀ {l m : List PreId}, cmpIds l m = .eq → l = m
  | [], [], _ => rfl
  | [], _ :: _, h => by cases h
  | _ :: _, [], h => by cases h
  | i :: l, j :: m, h => by
    simp only [cmpIds] at h
    rcases hij : cmpId i j with _ | _ | _ <;> rw [hij] at h
    · cases h
    · rw [cmpId_eq hij, cmpIds_eq h]
    · cases h

lemma cmpIds_le_trans : ∀ {l m k : List PreId},
    cmpIds l m ≠ .gt → cmpIds m k ≠ .gt → cmpIds l k ≠ .gt
  | [], _, [], _, _ => by simp [cmpIds]
  | [], _, _ :: _, _, _ => by simp [cmpIds]
  | _ :: _, [], _, h1, _ => by simp [cmpIds] at h1
  | _ :: _, _ :: _, [], _, h2 => by simp [cmpIds] at h2
  | i :: l, j :: m, k :: ks, h1, h2 => by
    simp only [cmpIds] at h1 h2 ⊢
    rcases hij : cmpId i j with _ | _ | _ <;> rw [hij] at h1 <;>
      rcases hjk : cmpId j k with _ | _ | _ <;> rw [hjk] at h2
    · rw [cmpId_lt_trans hij hjk]
      simp
    · rw [← cmpId_eq hjk, hij]
      simp
    · exact absurd rfl h2
    · rw [cmpId_eq hij, hjk]
      simp
    · rw [cmpId_eq hij, cmpId_eq hjk, cmpId_refl]
      exact cmpIds_le_trans h1 h2
    · exact absurd rfl h2
    · exact absurd rfl h1
    · exact absurd rfl h1
    · exact absurd rfl h1

lemma cmpPre_refl (l : List PreId) : cmpPre l l = .eq := by
  cases l with
  | nil => rfl
  | cons i l =>
    simp only [cmpPre]
    exact cmpIds_refl (i :: l)

lemma cmpPre_swap (l m : List PreId) : cmpPre l m = (cmpPre m l).swap := by
  cases l <;> cases m <;> simp only [cmpPre] <;> first | rfl | exact cmpIds_swap _ _

lemma cmpPre_eq : ∀ {l m : List PreId}, cmpPre l m = .eq → l = m
  | [], [], _ => rfl
  | [], _ :: _, h => by cases h
  | _ :: _, [], h => by cases h
  | i :: l, j :: m, h => by
    simp only [cmpPre] at h
    exact cmpIds_eq h

lemma cmpPre_le_trans : ∀ {l m k : List PreId},
    cmpPre l m ≠ .gt → cmpPre m k ≠ .gt → cmpPre l k ≠ .gt
  | [], [], _, _, h2 => h2
  | [], _ :: _, [], _, _ => by simp [cmpPre]
  | [], _ :: _, _ :: _, h1, _ => by simp [cmpPre] at h1
  | _ :: _, [], [], _, _ => by simp [cmpPre]
  | _ :: _, [], _ :: _, _, h2 => by simp [cmpPre] at h2
  | _ :: _, _ :: _, [], _, _ => by simp [cmpPre]
  | i :: l, j :: m, k :: ks, h1, h2 => by
    simp only [cmpPre] at h1 h2 ⊢
    exact cmpIds_le_trans h1 h2

lemma semverCompare_refl (v : SemVer) : semverCompare v v = .eq := by
  simp only [semverCompare, cmpNat_refl]
  exact cmpPre_refl v.prerelease

lemma semverCompare_swap (a b : SemVer) : semverCompare a b = (semverCompare b a).swap := by
  simp only [semverCompare]
  rcases cmpNat_cases a.major b.major with ⟨h1, e1⟩ | ⟨h1, e1⟩ | ⟨h1, e1⟩ <;>
    rcases cmpNat_cases b.major a.major with ⟨h2, e2⟩ | ⟨h2, e2⟩ | ⟨h2, e2⟩ <;>
      rw [e1, e2] <;> try first | rfl | omega
  rcases cmpNat_cases a.minor b.minor with ⟨h3, e3⟩ | ⟨h3, e3⟩ | ⟨h3, e3⟩ <;>
    rcases cmpNat_cases b.minor a.minor with ⟨h4, e4⟩ | ⟨h4, e4⟩ | ⟨h4, e4⟩ <;>
      rw [e3, e4] <;> try first | rfl | omega
  rcases cmpNat_cases a.patch b.patch with ⟨h5, e5⟩ | ⟨h5, e5⟩ | ⟨h5, e5⟩ <;>
    rcases cmpNat_cases b.patch a.patch with ⟨h6, e6⟩ | ⟨h6, e6⟩ | ⟨h6, e6⟩ <;>
      rw [e5, e6] <;> try first | rfl | omega
  exact cmpPre_swap a.prerelease b.prerelease

lemma semverCompare_eq {a b : SemVer} (h : semverCompare a b = .eq) :
    a.major = b.major ∧ a.minor = b.minor ∧ a.patch = b.patch ∧
      a.prerelease = b.prerelease := by
  simp only [semverCompare] at h
  rcases e1 : cmpNat a.major b.major with _ | _ | _ <;> rw [e1] at h <;> try cases h
  rcases e2 : cmpNat a.minor b.minor with _ | _ | _ <;> rw [e2] at h <;> try cases h
  rcases e3 : cmpNat a.patch b.patch with _ | _ | _ <;> rw [e3] at h <;> try cases h
  exact ⟨cmpNat_eq e1, cmpNat_eq e2, cmpNat_eq e3, cmpPre_eq h⟩

lemma semverCompare_le_trans {a b c : SemVer}
    (h1 : semverCompare a b ≠ .gt) (h2 : semverCompare b c ≠ .gt) :
    semverCompare a c ≠ .gt := by
  simp only [semverCompare] at h1 h2 ⊢
  exact cmpnat_chain_le_trans h1 h2 (fun m1 m2 =>
    cmpnat_chain_le_trans m1 m2 (fun p1 p2 =>
      cmpnat_chain_le_trans p1 p2 (fun q1 q2 => cmpPre_le_trans q1 q2)))

end BscotchRelease

namespace BscotchRelease

lemma semverCompareStr_parsed {a b : List Char} {va vb : SemVer}
    (ha : parseSemVer a = some va) (hb : parseSemVer b = some vb) :
    semverCompareStr a b = semverCompare va vb := by
  simp [semverCompareStr, ha, hb]

lemma semverCompareStr_self (a : List Char) : semverCompareStr a a ≠ .gt := by
  rw [semverCompareStr]
  cases h : parseSemVer a
  · simp
  · simp [semverCompare_refl]

lemma semverCompareStr_swap (a b : List Char) :
    semverCompareStr a b = (semverCompareStr b a).swap := by
  rw [semverCompareStr, semverCompareStr]
  cases parseSemVer a <;> cases parseSemVer b
  · rfl
  · rfl
  · rfl
  · exact semverCompare_swap _ _

lemma semverCompareStr_le_trans {a b c : List Char}
    (ha : (parseSemVer a).isSome = true) (hb : (parseSemVer b).isSome = true)
    (hc : (parseSemVer c).isSome = true)
    (h1 : semverCompareStr a b ≠ .gt) (h2 : semverCompareStr b c ≠ .gt) :
    semverCompareStr a c ≠ .gt := by
  obtain ⟨va, hva⟩ := Option.isSome_iff_exists.mp ha
  obtain ⟨vb, hvb⟩ := Option.isSome_iff_exists.mp hb
  obtain ⟨vc, hvc⟩ := Option.isSome_iff_exists.mp hc
  rw [semverCompareStr_parsed hva hvb] at h1
  rw [semverCompareStr_parsed hvb hvc] at h2
  rw [semverCompareStr_parsed hva hvc]
  exact semverCompare_le_trans h1 h2

lemma semverCompareStr_not_lt {x acc : List Char} (h : semverCompareStr x acc ≠ .lt) :
    semverCompareStr acc x ≠ .gt := by
  intro hgt
  apply h
  rw [semverCompareStr_swap, hgt]
  rfl

lemma lastMaxBy_mem (cmp : List Char → List Char → Ordering) :
    ∀ (acc : List Char) (xs : List (List Char)),
    lastMaxBy cmp acc xs = acc ∨ lastMaxBy cmp acc xs ∈ xs
  | _, [] => Or.inl rfl
  | acc, x :: xs => by
    simp only [lastMaxBy]
    rcases lastMaxBy_mem cmp (if cmp x acc = .lt then acc else x) xs with h | h
    · rw [h]
      by_cases hc : cmp x acc = .lt
      · rw [if_pos hc]
        exact Or.inl rfl
      · rw [if_neg hc]
        exact Or.inr (List.mem_cons_self x xs)
    · exact Or.inr (List.mem_cons_of_mem x h)

lemma lastMaxBy_not_gt : ∀ (acc : List Char) (xs : List (List Char)),
    (parseSemVer acc).isSome = true → (∀ t ∈ xs, (parseSemVer t).isSome = true) →
    semverCompareStr acc (lastMaxBy semverCompareStr acc xs) ≠ .gt ∧
      ∀ t ∈ xs, semverCompareStr t (lastMaxBy semverCompareStr acc xs) ≠ .gt
  | acc, [], hacc, _ => by
    refine ⟨?_, by simp⟩
    rw [lastMaxBy]
    exact semverCompareStr_self acc
  | acc, x :: xs, hacc, hxs => by
    simp only [lastMaxBy]
    have hx : (parseSemVer x).isSome = true := hxs x (List.mem_cons_self x xs)
    have hxs' : ∀ t ∈ xs, (parseSemVer t).isSome = true :=
      fun t ht => hxs t (List.mem_cons_of_mem x ht)
    by_cases hc : semverCompareStr x acc = .lt
    · rw [if_pos hc]
      obtain ⟨ihacc, ihxs⟩ := lastMaxBy_not_gt acc xs hacc hxs'
      have hr : (parseSemVer (lastMaxBy semverCompareStr acc xs)).isSome = true := by
        rcases lastMaxBy_mem semverCompareStr acc xs with h | h
        · rw [h]
          exact hacc
        · exact hxs' _ h
      refine ⟨ihacc, ?_⟩
      intro t ht
      rcases List.mem_cons.mp ht with rfl | ht
      · exact semverCompareStr_le_trans hx hacc hr (by simp [hc]) ihacc
      · exact ihxs t ht
    · rw [if_neg hc]
      obtain ⟨ihacc, ihxs⟩ := lastMaxBy_not_gt x xs hx hxs'
      have hr : (parseSemVer (lastMaxBy semverCompareStr x xs)).isSome = true := by
        rcases lastMaxBy_mem semverCompareStr x xs with h | h
        · rw [h]
          exact hx
        · exact hxs' _ h
      refine ⟨semverCompareStr_le_trans hacc hx hr (semverCompareStr_not_lt hc) ihacc, ?_⟩
      intro t ht
      rcases List.mem_cons.mp ht with rfl | ht
      · exact ihacc
      · exact ihxs t ht

lemma maxVersion_ok_some {l : List (List Char)} {m : List Char}
    (h : maxVersion l = .ok (some m)) :
    m ∈ l ∧ ∀ t ∈ l, semverCompareStr t m ≠ .gt := by
  match l with
  | [] => simp [maxVersion] at h
  | [v] =>
    simp only [maxVersion, Except.ok.injEq, Option.some.injEq] at h
    subst h
    refine ⟨List.mem_singleton.mpr rfl, ?_⟩
    intro t ht
    rw [List.mem_singleton.mp ht]
    exact semverCompareStr_self _
  | v :: w :: vs =>
    simp only [maxVersion] at h
    split at h
    · rename_i hall
      simp only [Except.ok.injEq, Option.some.injEq] at h
      subst h
      have hall' := List.all_eq_true.mp hall
      have hv : (parseSemVer v).isSome = true := hall' v (List.mem_cons_self v _)
      have hws : ∀ t ∈ w :: vs, (parseSemVer t).isSome = true :=
        fun t ht => hall' t (List.mem_cons_of_mem v ht)
      obtain ⟨hacc, hxs⟩ := lastMaxBy_not_gt v (w :: vs) hv hws
      constructor
      · rcases lastMaxBy_mem semverCompareStr v (w :: vs) with hh | hh
        · rw [hh]
          exact List.mem_cons_self v _
        · exact List.mem_cons_of_mem v hh
      · intro t ht
        rcases List.mem_cons.mp ht with rfl | ht
        · exact hacc
        · exact hxs t ht
    · cases h

lemma maxVersion_ok_none {l : List (List Char)} (h : maxVersion l = .ok none) : l = [] := by
  match l with
  | [] => rfl
  | [v] => simp [maxVersion] at h
  | v :: w :: vs =>
    simp only [maxVersion] at h
    split at h <;> simp at h

lemma maxVersion_all_parse {l : List (List Char)} {m : List Char}
    (h : maxVersion l = .ok (some m)) :
    l = [m] ∨ ∀ t ∈ l, (parseSemVer t).isSome = true := by
  match l with
  | [] => simp [maxVersion] at h
  | [v] =>
    simp only [maxVersion, Except.ok.injEq, Option.some.injEq] at h
    subst h
    exact Or.inl rfl
  | v :: w :: vs =>
    simp only [maxVersion] at h
    split at h
    · rename_i hall
      exact Or.inr (List.all_eq_true.mp hall)
    · cases h

/-- Claim C2, amended: the anchor (`latestTag`) is not the maximum of the
active family; it is the semver-maximum of all glob-matching (`v*-bscotch.*`)
tags whenever that maximum starts with `v<base>-`, and the synthetic
`v<base>-bscotch.0` otherwise — so any marker tag of a higher foreign base
version displaces the family maximum and forces the fallback. -/
theorem c2_amended (base : List Char) (tags : List (List Char)) (r : Bool × List Char)
    (h : latestTagOf base tags = .ok r) :
    (r.1 = true → r.2 = defaultTag base) ∧
    (r.1 = false → r.2 ∈ tags ∧ globMatch r.2 = true ∧
      startsWithL (basePrefix base) r.2 = true ∧
      ∀ t ∈ tags, globMatch t = true → semverCompareStr t r.2 ≠ .gt) := by
  cases hmax : getMaxMatchingTag tags with
  | error e =>
    simp only [latestTagOf, hmax] at h
    cases h
  | ok o =>
    cases o with
    | none =>
      simp only [latestTagOf, hmax] at h
      injection h with h2
      subst h2
      constructor
      · intro _
        rfl
      · intro hh
        simp at hh
    | some m =>
      simp only [latestTagOf, hmax] at h
      by_cases hsw : startsWithL (basePrefix base) m = true
      · rw [if_pos hsw] at h
        injection h with h2
        subst h2
        constructor
        · intro hh
          simp at hh
        · intro _
          obtain ⟨hmem, hmaxx⟩ := maxVersion_ok_some hmax
          rw [getMatchingTags] at hmem hmaxx
          rw [List.mem_filter] at hmem
          refine ⟨hmem.1, hmem.2, hsw, ?_⟩
          intro t ht hg
          exact hmaxx t (List.mem_filter.mpr ⟨ht, hg⟩)
      · rw [if_neg hsw] at h
        injection h with h2
        subst h2
        constructor
        · intro _
          rfl
        · intro hh
          simp at hh

/-- Witness for `c2_amended`: with the single matching tag `v1.0.0-bscotch.3`
the anchor is that tag itself, a maximal matching tag with the base prefix. -/
theorem c2_amended_witness :
    ("v1.0.0-bscotch.3".data ∈ ["v1.0.0-bscotch.3".data, "docs".data] ∧
      globMatch "v1.0.0-bscotch.3".data = true ∧
      startsWithL (basePrefix "1.0.0".data) "v1.0.0-bscotch.3".data = true ∧
      ∀ t ∈ ["v1.0.0-bscotch.3".data, "docs".data], globMatch t = true →
        semverCompareStr t "v1.0.0-bscotch.3".data ≠ .gt) :=
  (c2_amended "1.0.0".data ["v1.0.0-bscotch.3".data, "docs".data]
    (false, "v1.0.0-bscotch.3".data) rfl).2 rfl

end BscotchRelease

namespace BscotchRelease

lemma startsWithL_iff : ∀ (p s : List Char), startsWithL p s = true ↔ ∃ t, s = p ++ t
  | [], s => by
    simp [startsWithL]
  | a :: p, [] => by
    simp [startsWithL]
  | a :: p, b :: s => by
    simp only [startsWithL]
    by_cases hab : a = b
    · subst hab
      rw [if_pos rfl, startsWithL_iff p s]
      constructor
      · rintro ⟨t, rfl⟩
        exact ⟨t, rfl⟩
      · rintro ⟨t, ht⟩
        rw [List.cons_append] at ht
        exact ⟨t, (List.cons.inj ht).2⟩
    · rw [if_neg hab]
      constructor
      · intro hh
        cases hh
      · rintro ⟨t, ht⟩
        rw [List.cons_append] at ht
        exact absurd (List.cons.inj ht).1 (fun hh => hab hh.symm)

lemma startsWithL_append (p t : List Char) : startsWithL p (p ++ t) = true :=
  (startsWithL_iff p (p ++ t)).mpr ⟨t, rfl⟩

lemma containsPat_of (pat a b : List Char) : containsPat pat (a ++ (pat ++ b)) = true := by
  rw [containsPat, List.any_eq_true]
  refine ⟨a.length, ?_, ?_⟩
  · rw [List.mem_range]
    simp only [List.length_append]
    omega
  · rw [List.drop_left]
    exact startsWithL_append pat b

lemma containsPat_elim {pat s : List Char} (h : containsPat pat s = true) :
    ∃ a b, s = a ++ (pat ++ b) := by
  rw [containsPat, List.any_eq_true] at h
  obtain ⟨i, _, hsw⟩ := h
  obtain ⟨t, ht⟩ := (startsWithL_iff _ _).mp hsw
  exact ⟨s.take i, t, by rw [← ht, List.take_append_drop]⟩

lemma globMatch_intro {rest : List Char} (h : containsPat globPat rest = true) :
    globMatch ('v' :: rest) = true := by
  simp [globMatch, h]

lemma globMatch_elim {s : List Char} (h : globMatch s = true) :
    ∃ rest, s = 'v' :: rest ∧ containsPat globPat rest = true := by
  cases s with
  | nil => cases h
  | cons a rest =>
    simp only [globMatch] at h
    by_cases ha : a = 'v'
    · subst ha
      rw [if_pos rfl] at h
      exact ⟨rest, rfl, h⟩
    · rw [if_neg ha] at h
      cases h

lemma globPat_eq : globPat = '-' :: marker ++ ['.'] := rfl

/-- A tag that parses and starts with `v<renderMain x y z>-` has exactly that
main version and a non-empty prerelease. -/
lemma probe_parse {x y z : Nat} {t : List Char} {vt : SemVer}
    (hp : startsWithL (basePrefix (renderMain x y z)) t = true)
    (ht : parseSemVer t = some vt) :
    vt.major = x ∧ vt.minor = y ∧ vt.patch = z ∧ vt.prerelease ≠ [] := by
  obtain ⟨tt, htt⟩ := (startsWithL_iff _ _).mp hp
  rw [basePrefix] at htt
  have hshape : t = 'v' :: ((renderMain x y z ++ ['-']) ++ tt) := by
    rw [htt]
    simp
  have hdp : '+' ∉ renderMain x y z ++ ['-'] := by
    intro hmem
    rcases List.mem_append.mp hmem with hh | hh
    · exact renderMain_no_plus x y z hh
    · rcases List.mem_cons.mp hh with hh | hh
      · cases hh
      · cases hh
  have hdv : dropV t = (renderMain x y z ++ ['-']) ++ tt := by
    rw [hshape, dropV_cons_v]
  have hsp : splitFirst '+' (dropV t) =
      ((renderMain x y z ++ ['-']) ++ (splitFirst '+' tt).1, (splitFirst '+' tt).2) := by
    rw [hdv, splitFirst_append hdp]
  have hcore : (renderMain x y z ++ ['-']) ++ (splitFirst '+' tt).1 =
      renderMain x y z ++ '-' :: (splitFirst '+' tt).1 := by
    simp
  have hsm : splitFirst '-' (renderMain x y z ++ '-' :: (splitFirst '+' tt).1) =
      (renderMain x y z, some (splitFirst '+' tt).1) :=
    splitFirst_mk (renderMain_no_dash x y z) _
  rw [parseSemVer] at ht
  simp only [hsp, hcore, hsm, parseMain_render] at ht
  rcases hpp : parsePre (splitFirst '+' tt).1 with _ | pre
  · simp [hpp] at ht
  rcases hbq : (splitFirst '+' tt).2 with _ | b
  · simp only [hpp, hbq, Option.some.injEq] at ht
    rw [← ht]
    exact ⟨rfl, rfl, rfl, parsePre_ne_nil hpp⟩
  · rcases hpb : parseBuild b with _ | bld
    · simp [hpp, hbq, hpb] at ht
    · simp only [hpp, hbq, hpb, Option.some.injEq] at ht
      rw [← ht]
      exact ⟨rfl, rfl, rfl, parsePre_ne_nil hpp⟩

lemma wf_marker_pair (k : Nat) : ∀ id ∈ [PreId.str marker, PreId.num k], wfId id := by
  intro id hid
  rcases List.mem_cons.mp hid with rfl | hid
  · refine ⟨by decide, by decide, by decide⟩
  · rcases List.mem_cons.mp hid with rfl | hid
    · trivial
    · cases hid

lemma defaultTag_eq (x y z : Nat) :
    defaultTag (renderMain x y z) =
      'v' :: renderSemVer ⟨x, y, z, [.str marker, .num 0], []⟩ := by
  have h : "-bscotch.0".data = '-' :: renderPre [PreId.str marker, PreId.num 0] := rfl
  rw [defaultTag, h, renderSemVer]
  rw [if_neg (by simp)]
  simp

lemma parse_defaultTag (x y z : Nat) :
    parseSemVer (defaultTag (renderMain x y z)) =
      some ⟨x, y, z, [.str marker, .num 0], []⟩ := by
  rw [defaultTag_eq]
  exact parseSemVer_render ⟨x, y, z, [.str marker, .num 0], []⟩ (wf_marker_pair 0)

lemma incLastNum_gt : ∀ {l l2 : List PreId}, incLastNum l = some l2 → cmpIds l2 l = .gt
  | [], _, h => by cases h
  | x :: xs, l2, h => by
    rw [incLastNum] at h
    cases hxs : incLastNum xs with
    | some xs2 =>
      rw [hxs] at h
      simp only [incLastNumAux, Option.some.injEq] at h
      rw [← h]
      simp only [cmpIds, cmpId_refl]
      exact incLastNum_gt hxs
    | none =>
      rw [hxs] at h
      simp only [incLastNumAux] at h
      cases x with
      | num n =>
        simp only [Option.some.injEq] at h
        rw [← h]
        simp only [cmpIds, cmpId]
        rcases cmpNat_cases (n + 1) n with ⟨g, e⟩ | ⟨g, e⟩ | ⟨g, e⟩ <;> rw [e] <;> omega
      | str s => cases h

lemma incLastNum_num_isSome (k : Nat) (rest : List PreId) :
    (incLastNum (.num k :: rest)).isSome = true := by
  rw [incLastNum]
  cases hxs : incLastNum rest with
  | some xs2 => rfl
  | none => rfl

lemma incPrerelease_family {v : SemVer} {k : Nat} {rest : List PreId}
    (h : v.prerelease = .str marker :: .num k :: rest) :
    ∃ k2 rest2,
      incPrerelease v = { v with prerelease := .str marker :: .num k2 :: rest2 } ∧
      cmpIds (.str marker :: .num k2 :: rest2) v.prerelease = .gt := by
  have hne : v.prerelease ≠ [] := by rw [h]; simp
  obtain ⟨q, hq⟩ := Option.isSome_iff_exists.mp (incLastNum_num_isSome k rest)
  have hq2 : incLastNum v.prerelease = some (.str marker :: q) := by
    rw [h, incLastNum, hq]
    rfl
  have hgt : cmpIds (.str marker :: q) v.prerelease = .gt := incLastNum_gt hq2
  obtain ⟨k2, rest2, hq3⟩ : ∃ k2 rest2, q = PreId.num k2 :: rest2 := by
    rw [incLastNum] at hq
    cases hrest : incLastNum rest with
    | some xs2 =>
      rw [hrest] at hq
      simp only [incLastNumAux, Option.some.injEq] at hq
      exact ⟨k, xs2, hq.symm⟩
    | none =>
      rw [hrest] at hq
      simp only [incLastNumAux, Option.some.injEq] at hq
      exact ⟨k + 1, rest, hq.symm⟩
  subst hq3
  refine ⟨k2, rest2, ?_, hgt⟩
  simp only [incPrerelease, if_neg hne, hq2]
  simp

lemma incPrerelease_pair {v : SemVer} {k : Nat} (h : v.prerelease = [.str marker, .num k]) :
    incPrerelease v = { v with prerelease := [.str marker, .num (k + 1)] } := by
  have hne : v.prerelease ≠ [] := by rw [h]; simp
  have hq2 : incLastNum v.prerelease = some [.str marker, .num (k + 1)] := by
    rw [h]
    rfl
  simp only [incPrerelease, if_neg hne, hq2]
  simp

end BscotchRelease

namespace BscotchRelease

/-- The literal family tag `v<x.y.z>-bscotch.<k>`. -/
def familyTagStr (x y z k : Nat) : List Char :=
  'v' :: renderSemVer ⟨x, y, z, [.str marker, .num k], []⟩

lemma maxVersion_ok_of_parse {l : List (List Char)}
    (hall : ∀ t ∈ l, (parseSemVer t).isSome = true) : ∃ r, maxVersion l = .ok r := by
  match l with
  | [] => exact ⟨none, rfl⟩
  | [v] => exact ⟨some v, rfl⟩
  | v :: w :: vs =>
    refine ⟨some (lastMaxBy semverCompareStr v (w :: vs)), ?_⟩
    simp only [maxVersion]
    rw [if_pos (List.all_eq_true.mpr hall)]

lemma resolveFromMax_ok_none (x y z : Nat) :
    resolveFromMax (renderMain x y z) (.ok none) =
      .ok (renderSemVer ⟨x, y, z, [.str marker, .num 1], []⟩, familyTagStr x y z 1) := by
  simp only [resolveFromMax, parse_defaultTag,
    incPrerelease_pair (v := (⟨x, y, z, [.str marker, .num 0], []⟩ : SemVer)) rfl]
  rfl

lemma resolveFromMax_ok_some_fail (x y z : Nat) (m : List Char)
    (hm : startsWithL (basePrefix (renderMain x y z)) m = false) :
    resolveFromMax (renderMain x y z) (.ok (some m)) =
      .ok (renderSemVer ⟨x, y, z, [.str marker, .num 1], []⟩, familyTagStr x y z 1) := by
  simp only [resolveFromMax, hm, Bool.false_eq_true, if_false, parse_defaultTag,
    incPrerelease_pair (v := (⟨x, y, z, [.str marker, .num 0], []⟩ : SemVer)) rfl]
  rfl

/-- Claim C3, amended: whenever no glob-matching tag starts with `v<B>-` (in
particular for an empty tag set, and after the manifest base version is
bumped to a fresh plain base `B = x.y.z`), the resolution returns
`v<B>-bscotch.1` — counter one, not the claimed zero: the synthetic anchor
`v<B>-bscotch.0` is itself incremented. -/
theorem c3_amended (x y z : Nat) (tags : List (List Char))
    (h : ∀ t ∈ tags, globMatch t = true → (parseSemVer t).isSome = true ∧
      startsWithL (basePrefix (renderMain x y z)) t = false) :
    resolveNext (renderMain x y z) tags =
      .ok (renderSemVer ⟨x, y, z, [.str marker, .num 1], []⟩, familyTagStr x y z 1) := by
  rw [resolveNext]
  have hall : ∀ t ∈ getMatchingTags tags, (parseSemVer t).isSome = true := by
    intro t ht
    rw [getMatchingTags, List.mem_filter] at ht
    exact (h t ht.1 ht.2).1
  obtain ⟨r, hr⟩ := maxVersion_ok_of_parse hall
  rw [getMaxMatchingTag, hr]
  cases r with
  | none => exact resolveFromMax_ok_none x y z
  | some m =>
    obtain ⟨hmem, _⟩ := maxVersion_ok_some hr
    rw [getMatchingTags, List.mem_filter] at hmem
    exact resolveFromMax_ok_some_fail x y z m ((h m hmem.1 hmem.2).2)

/-- Witness for `c3_amended`: base bumped to `1.3.0` over an old-base family
tag `v1.2.0-bscotch.5` yields `v1.3.0-bscotch.1`. -/
theorem c3_amended_witness :
    resolveNext "1.3.0".data ["v1.2.0-bscotch.5".data] =
      .ok ("1.3.0-bscotch.1".data, "v1.3.0-bscotch.1".data) :=
  c3_amended 1 3 0 ["v1.2.0-bscotch.5".data] (by decide)

end BscotchRelease

namespace BscotchRelease

lemma parse_familyTagStr (x y z k : Nat) :
    parseSemVer (familyTagStr x y z k) = some ⟨x, y, z, [.str marker, .num k], []⟩ :=
  parseSemVer_render ⟨x, y, z, [.str marker, .num k], []⟩ (wf_marker_pair k)

lemma probe_familyTagStr (x y z k : Nat) :
    startsWithL (basePrefix (renderMain x y z)) (familyTagStr x y z k) = true := by
  rw [startsWithL_iff]
  refine ⟨renderPre [.str marker, .num k], ?_⟩
  simp only [familyTagStr, renderSemVer, basePrefix]
  rw [if_neg (by simp)]
  simp

lemma cmp_familyTags (x y z k j : Nat) :
    semverCompareStr (familyTagStr x y z k) (familyTagStr x y z j) = cmpNat k j := by
  rw [semverCompareStr_parsed (parse_familyTagStr x y z k) (parse_familyTagStr x y z j)]
  simp only [semverCompare, cmpNat_refl, cmpPre, cmpIds, cmpId, cmpChars_refl]
  cases cmpNat k j <;> rfl

lemma resolveFromMax_family (x y z k : Nat) :
    resolveFromMax (renderMain x y z) (.ok (some (familyTagStr x y z k))) =
      .ok (renderSemVer ⟨x, y, z, [.str marker, .num (k + 1)], []⟩,
        familyTagStr x y z (k + 1)) := by
  simp only [resolveFromMax, probe_familyTagStr, if_true, parse_familyTagStr,
    incPrerelease_pair (v := (⟨x, y, z, [.str marker, .num k], []⟩ : SemVer)) rfl]
  rfl

/-- Claim C4: when the glob-matching tags are exactly the family
`{v<x.y.z>-bscotch.0, …, v<x.y.z>-bscotch.k}` (in any order, and any other
tags do not match the pattern), the resolution returns
`v<x.y.z>-bscotch.(k+1)`: the anchor's trailing numeric prerelease identifier
is increased by exactly one while the marker and major.minor.patch stay
fixed. -/
theorem c4_family_increment (x y z k : Nat) (tags : List (List Char))
    (h : (tags.filter globMatch).Perm ((List.range (k + 1)).map (familyTagStr x y z))) :
    resolveNext (renderMain x y z) tags =
      .ok (renderSemVer ⟨x, y, z, [.str marker, .num (k + 1)], []⟩,
        familyTagStr x y z (k + 1)) := by
  have hgm : getMatchingTags tags = tags.filter globMatch := rfl
  rw [resolveNext, getMaxMatchingTag]
  have hall : ∀ t ∈ getMatchingTags tags, (parseSemVer t).isSome = true := by
    intro t ht
    rw [hgm] at ht
    have ht2 : t ∈ (List.range (k + 1)).map (familyTagStr x y z) := h.mem_iff.mp ht
    rw [List.mem_map] at ht2
    obtain ⟨j, _, rfl⟩ := ht2
    rw [parse_familyTagStr]
    rfl
  obtain ⟨r, hr⟩ := maxVersion_ok_of_parse hall
  rw [hr]
  cases r with
  | none =>
    exfalso
    have h0 := maxVersion_ok_none hr
    rw [hgm] at h0
    have hlen := h.length_eq
    rw [h0] at hlen
    simp at hlen
  | some mt =>
    obtain ⟨hmem, hmax⟩ := maxVersion_ok_some hr
    rw [hgm] at hmem
    have hmem2 : mt ∈ (List.range (k + 1)).map (familyTagStr x y z) := h.mem_iff.mp hmem
    rw [List.mem_map] at hmem2
    obtain ⟨j, hj, rfl⟩ := hmem2
    rw [List.mem_range] at hj
    have htagk : familyTagStr x y z k ∈ getMatchingTags tags := by
      rw [hgm]
      exact h.mem_iff.mpr (List.mem_map.mpr ⟨k, List.mem_range.mpr (by omega), rfl⟩)
    have hke := hmax _ htagk
    rw [cmp_familyTags] at hke
    have hjk : j = k := by
      rcases cmpNat_cases k j with ⟨g, e⟩ | ⟨g, e⟩ | ⟨g, e⟩
      · omega
      · omega
      · rw [e] at hke
        exact absurd rfl hke
    subst hjk
    exact resolveFromMax_family x y z j

/-- Witness for `c4_family_increment`: base `2.0.0` with family tags `.0`
and `.1` (plus a non-matching tag) yields `v2.0.0-bscotch.2`. -/
theorem c4_family_increment_witness :
    resolveNext "2.0.0".data
      ["v2.0.0-bscotch.0".data, "foo".data, "v2.0.0-bscotch.1".data] =
      .ok ("2.0.0-bscotch.2".data, "v2.0.0-bscotch.2".data) :=
  c4_family_increment 2 0 0 1
    ["v2.0.0-bscotch.0".data, "foo".data, "v2.0.0-bscotch.1".data] (by decide)

end BscotchRelease

namespace BscotchRelease

lemma claimedForm_familyTagStr (x y z k : Nat) :
    specClaimedTagForm (renderMain x y z) (familyTagStr x y z k) = true := by
  have hsplit : familyTagStr x y z k =
      ('v' :: renderMain x y z ++ '-' :: marker ++ ['.']) ++ natToCanon k := by
    simp only [familyTagStr, renderSemVer]
    rw [if_neg (by simp)]
    simp [renderPre, joinWith, renderId, List.append_assoc]
  rw [specClaimedTagForm, hsplit]
  simp only [startsWithL_append, List.drop_left, canonicalNum_natToCanon, Bool.and_self]

lemma resolveFromMax_marker_pair (x y z : Nat) {m : List Char} {vm : SemVer} {k : Nat}
    (hp : startsWithL (basePrefix (renderMain x y z)) m = true)
    (hparse : parseSemVer m = some vm)
    (hpre : vm.prerelease = [.str marker, .num k])
    (hmain : vm.major = x ∧ vm.minor = y ∧ vm.patch = z) :
    resolveFromMax (renderMain x y z) (.ok (some m)) =
      .ok (renderSemVer ⟨x, y, z, [.str marker, .num (k + 1)], []⟩,
        familyTagStr x y z (k + 1)) := by
  obtain ⟨hx, hy, hz⟩ := hmain
  simp only [resolveFromMax, hp, if_true, hparse, incPrerelease_pair hpre]
  have hrw : renderSemVer { vm with prerelease := [.str marker, .num (k + 1)] } =
      renderSemVer ⟨x, y, z, [.str marker, .num (k + 1)], []⟩ := by
    simp [renderSemVer, hx, hy, hz]
  rw [hrw]
  rfl

/-- Claim C9, amended: for a plain base version `x.y.z` and a tag set in
which every glob-matching tag with the `v<x.y.z>-` prefix is a well-formed
family tag (prerelease exactly `bscotch.<k>`), any successful resolution
returns a tag of the exact form `v<x.y.z>-bscotch.<N>` with `N` a canonical
non-negative integer.  (Without that restriction the output can carry extra
identifiers, as the counterexample shows.) -/
theorem c9_amended (x y z : Nat) (tags : List (List Char))
    (h : ∀ t ∈ tags, globMatch t = true →
      startsWithL (basePrefix (renderMain x y z)) t = true →
      ∃ k vt, parseSemVer t = some vt ∧ vt.prerelease = [.str marker, .num k])
    (nv nt : List Char)
    (hok : resolveNext (renderMain x y z) tags = .ok (nv, nt)) :
    specClaimedTagForm (renderMain x y z) nt = true := by
  rw [resolveNext, getMaxMatchingTag] at hok
  cases hmax : maxVersion (getMatchingTags tags) with
  | error e =>
    rw [hmax] at hok
    cases hok
  | ok r =>
    rw [hmax] at hok
    cases r with
    | none =>
      rw [resolveFromMax_ok_none x y z] at hok
      injection hok with h2
      injection h2 with ha hb
      rw [← hb]
      exact claimedForm_familyTagStr x y z 1
    | some m =>
      by_cases hp : startsWithL (basePrefix (renderMain x y z)) m = true
      · obtain ⟨hmem, _⟩ := maxVersion_ok_some hmax
        rw [getMatchingTags, List.mem_filter] at hmem
        obtain ⟨k, vm, hparse, hpre⟩ := h m hmem.1 hmem.2 hp
        have hmm := probe_parse hp hparse
        rw [resolveFromMax_marker_pair x y z hp hparse hpre
          ⟨hmm.1, hmm.2.1, hmm.2.2.1⟩] at hok
        injection hok with h2
        injection h2 with ha hb
        rw [← hb]
        exact claimedForm_familyTagStr x y z (k + 1)
      · rw [resolveFromMax_ok_some_fail x y z m (by simpa using hp)] at hok
        injection hok with h2
        injection h2 with ha hb
        rw [← hb]
        exact claimedForm_familyTagStr x y z 1

/-- Witness for `c9_amended`: base `1.0.0` over the family tag
`v1.0.0-bscotch.3` produces `v1.0.0-bscotch.4`, which has the claimed form. -/
theorem c9_amended_witness :
    specClaimedTagForm "1.0.0".data "v1.0.0-bscotch.4".data = true :=
  c9_amended 1 0 0 ["v1.0.0-bscotch.3".data]
    (by
      intro t ht hg hs
      rw [List.mem_singleton] at ht
      subst ht
      exact ⟨3, ⟨1, 0, 0, [.str marker, .num 3], []⟩, rfl, rfl⟩)
    "1.0.0-bscotch.4".data "v1.0.0-bscotch.4".data rfl

end BscotchRelease

namespace BscotchRelease

lemma natToCanon_head_digit (n : Nat) :
    ∃ c cs, natToCanon n = c :: cs ∧ isDigitC c = true := by
  cases h : natToCanon n with
  | nil => exact absurd h (natToCanon_ne_nil n)
  | cons c cs =>
    refine ⟨c, cs, rfl, ?_⟩
    have hall := natToCanon_all_digits n
    rw [h, List.all_cons, Bool.and_eq_true] at hall
    exact hall.1

lemma renderMain_head (x y z : Nat) :
    ∃ c cs, renderMain x y z = c :: cs ∧ isDigitC c = true := by
  obtain ⟨c, cs, hc, hd⟩ := natToCanon_head_digit x
  refine ⟨c, cs ++ ('.' :: (natToCanon y ++ ('.' :: natToCanon z))), ?_, hd⟩
  rw [renderMain, hc, List.cons_append]

lemma parseSemVer_renderMain (x y z : Nat) :
    parseSemVer (renderMain x y z) = some ⟨x, y, z, [], []⟩ := by
  obtain ⟨c, cs, hc, hd⟩ := renderMain_head x y z
  have hcv : c ≠ 'v' := by
    intro h
    rw [h] at hd
    exact absurd hd (by decide)
  have hdv : dropV (renderMain x y z) = renderMain x y z := by
    rw [hc]
    simp only [dropV]
    rw [if_neg hcv]
  simp only [parseSemVer, hdv, splitFirst_no (renderMain_no_plus x y z),
    splitFirst_no (renderMain_no_dash x y z), parseMain_render]

lemma glob_familyTagStr (x y z k : Nat) : globMatch (familyTagStr x y z k) = true := by
  have hsplit : familyTagStr x y z k =
      'v' :: (renderMain x y z ++ (globPat ++ natToCanon k)) := by
    simp only [familyTagStr, renderSemVer, globPat_eq]
    rw [if_neg (by simp)]
    simp [renderPre, joinWith, renderId, List.append_assoc]
  rw [hsplit]
  exact globMatch_intro (containsPat_of globPat _ _)

lemma specActiveFamilyTag_elim {x y z : Nat} {t : List Char}
    (h : specActiveFamilyTag (renderMain x y z) t = true) :
    t.head? = some 'v' ∧ ∃ vt, parseSemVer t = some vt ∧ vt.major = x ∧
      vt.minor = y ∧ vt.patch = z ∧ vt.prerelease.head? = some (.str marker) := by
  rw [specActiveFamilyTag] at h
  by_cases hv : t.head? = some 'v'
  · rw [if_pos hv, parseSemVer_renderMain] at h
    rcases hp : parseSemVer t with _ | vt
    · rw [hp] at h
      simp at h
    · rw [hp] at h
      simp at h
      exact ⟨hv, vt, rfl, h.1, h.2.1, h.2.2.1, h.2.2.2⟩
  · rw [if_neg hv] at h
    cases h

end BscotchRelease

namespace BscotchRelease

lemma nonglob_family_single {t : List Char} {vt : SemVer}
    (hv : t.head? = some 'v')
    (hparse : parseSemVer t = some vt)
    (hhead : vt.prerelease.head? = some (.str marker))
    (hng : globMatch t = false) :
    vt.prerelease = [.str marker] := by
  obtain ⟨pfx, bsfx, hpfx, hdecomp, -⟩ := parseSemVer_decomp hparse
  obtain ⟨c, cs, hcmain, hcd⟩ := renderMain_head vt.major vt.minor vt.patch
  have hds : renderSemVer vt =
      c :: (cs ++ (if vt.prerelease = [] then [] else '-' :: renderPre vt.prerelease)) := by
    rw [renderSemVer, hcmain, List.cons_append]
  rcases hpfx with rfl | rfl
  · exfalso
    rw [hdecomp, hds] at hv
    simp only [List.nil_append, List.cons_append, List.head?_cons, Option.some.injEq] at hv
    subst hv
    exact absurd hcd (by decide)
  · cases hpre : vt.prerelease with
    | nil =>
      rw [hpre] at hhead
      cases hhead
    | cons p1 tl =>
      rw [hpre] at hhead
      simp only [List.head?_cons, Option.some.injEq] at hhead
      subst hhead
      cases tl with
      | nil => rfl
      | cons p2 tl2 =>
        exfalso
        have hrsv2 : renderSemVer vt =
            renderMain vt.major vt.minor vt.patch ++
              '-' :: (marker ++ '.' :: joinWith '.' (renderId p2 :: tl2.map renderId)) := by
          rw [renderSemVer, hpre, if_neg (by simp), renderPre, List.map_cons, List.map_cons]
          rfl
        have ht : t = 'v' :: (renderMain vt.major vt.minor vt.patch ++
            (globPat ++ (joinWith '.' (renderId p2 :: tl2.map renderId) ++ bsfx))) := by
          rw [hdecomp, hrsv2, globPat_eq]
          simp [List.append_assoc]
        rw [ht, globMatch_intro (containsPat_of globPat _ _)] at hng
        cases hng

lemma cmpNat_gt {a b : Nat} (h : b < a) : cmpNat a b = .gt := by
  rw [cmpNat, if_neg (by omega), if_pos h]

lemma cmp_family_vs_single (x y z n : Nat) (bld : List (List Char)) :
    semverCompare ⟨x, y, z, [.str marker, .num n], []⟩ ⟨x, y, z, [.str marker], bld⟩ =
      .gt := by
  simp [semverCompare, cmpNat_refl, cmpPre, cmpIds, cmpId, cmpChars_refl]

lemma gt_family_nonglob (x y z n : Nat) {t : List Char}
    (hfam : specActiveFamilyTag (renderMain x y z) t = true)
    (hng : globMatch t = false) :
    semverCompareStr (familyTagStr x y z n) t = .gt := by
  obtain ⟨hv, vt, hparse, hx, hy, hz, hhead⟩ := specActiveFamilyTag_elim hfam
  have hsingle : vt.prerelease = [.str marker] :=
    nonglob_family_single hv hparse hhead hng
  rw [semverCompareStr_parsed (parse_familyTagStr x y z n) hparse]
  obtain ⟨ma, mi, pa, pre, bld⟩ := vt
  have hx' : ma = x := hx
  have hy' : mi = y := hy
  have hz' : pa = z := hz
  have hpre' : pre = [.str marker] := hsingle
  subst hx'
  subst hy'
  subst hz'
  subst hpre'
  exact cmp_family_vs_single _ _ _ n bld

end BscotchRelease

namespace BscotchRelease

/-- Claim C1, amended: the guarantee holds only when the glob pattern
`v*-bscotch.*` is used exclusively by the current base version's well-formed
family: if every glob-matching tag starts with `v<x.y.z>-` and is literally
of the form `v<x.y.z>-bscotch.<k>`, then any successful resolution returns a
tag that is not present in the input tag set and sorts strictly above every
tag of the active family under semver precedence.  (Without that proviso
both parts fail, as the counterexample shows.) -/
theorem c1_amended (x y z : Nat) (tags : List (List Char))
    (hAll : ∀ t ∈ tags, globMatch t = true →
      startsWithL (basePrefix (renderMain x y z)) t = true ∧
        ∃ k, t = familyTagStr x y z k)
    (nv nt : List Char)
    (hok : resolveNext (renderMain x y z) tags = .ok (nv, nt)) :
    nt ∉ tags ∧
      ∀ t ∈ tags, specActiveFamilyTag (renderMain x y z) t = true →
        semverCompareStr nt t = .gt := by
  rw [resolveNext, getMaxMatchingTag] at hok
  cases hmax : maxVersion (getMatchingTags tags) with
  | error e =>
    rw [hmax] at hok
    cases hok
  | ok r =>
    rw [hmax] at hok
    cases r with
    | none =>
      have hempty : getMatchingTags tags = [] := maxVersion_ok_none hmax
      rw [resolveFromMax_ok_none x y z] at hok
      injection hok with h2
      injection h2 with ha hb
      subst hb
      constructor
      · intro hin
        have hmem : familyTagStr x y z 1 ∈ getMatchingTags tags :=
          List.mem_filter.mpr ⟨hin, glob_familyTagStr x y z 1⟩
        rw [hempty] at hmem
        cases hmem
      · intro t ht hfam
        have hng : globMatch t = false := by
          cases hgm : globMatch t with
          | false => rfl
          | true =>
            have hmem : t ∈ getMatchingTags tags := List.mem_filter.mpr ⟨ht, hgm⟩
            rw [hempty] at hmem
            cases hmem
        exact gt_family_nonglob x y z 1 hfam hng
    | some m =>
      obtain ⟨hmem, hmaxle⟩ := maxVersion_ok_some hmax
      rw [getMatchingTags, List.mem_filter] at hmem
      obtain ⟨-, K, hmK⟩ := hAll m hmem.1 hmem.2
      subst hmK
      rw [resolveFromMax_family x y z K] at hok
      injection hok with h2
      injection h2 with ha hb
      subst hb
      constructor
      · intro hin
        have hmem2 : familyTagStr x y z (K + 1) ∈ getMatchingTags tags :=
          List.mem_filter.mpr ⟨hin, glob_familyTagStr x y z (K + 1)⟩
        have hne := hmaxle _ hmem2
        rw [cmp_familyTags] at hne
        exact hne (cmpNat_gt (Nat.lt_succ_self K))
      · intro t ht hfam
        by_cases hg : globMatch t = true
        · obtain ⟨-, j, htj⟩ := hAll t ht hg
          subst htj
          have hmem3 : familyTagStr x y z j ∈ getMatchingTags tags :=
            List.mem_filter.mpr ⟨ht, hg⟩
          have hne := hmaxle _ hmem3
          rw [cmp_familyTags] at hne
          have hjK : j ≤ K := by
            by_contra hc
            exact hne (cmpNat_gt (by omega))
          rw [cmp_familyTags]
          exact cmpNat_gt (by omega)
        · have hng : globMatch t = false := by
            cases hgm : globMatch t with
            | false => rfl
            | true => exact absurd hgm hg
          exact gt_family_nonglob x y z (K + 1) hfam hng

/-- Witness for `c1_amended`: base `1.0.0` over the well-formed family
`{v1.0.0-bscotch.0, v1.0.0-bscotch.2}` yields `v1.0.0-bscotch.3`, which is
new and sorts strictly above every active-family tag. -/
theorem c1_amended_witness :
    "v1.0.0-bscotch.3".data ∉ ["v1.0.0-bscotch.0".data, "v1.0.0-bscotch.2".data] ∧
      ∀ t ∈ ["v1.0.0-bscotch.0".data, "v1.0.0-bscotch.2".data],
        specActiveFamilyTag (renderMain 1 0 0) t = true →
        semverCompareStr "v1.0.0-bscotch.3".data t = .gt :=
  c1_amended 1 0 0 ["v1.0.0-bscotch.0".data, "v1.0.0-bscotch.2".data]
    (by
      intro t ht hg
      simp only [List.mem_cons, List.mem_singleton] at ht
      rcases ht with rfl | rfl | hf
      · exact ⟨rfl, 0, rfl⟩
      · exact ⟨rfl, 2, rfl⟩
      · cases hf)
    "1.0.0-bscotch.3".data "v1.0.0-bscotch.3".data rfl

end BscotchRelease

namespace BscotchRelease

lemma startsWithL_append_plus : ∀ (p R bs : List Char), '+' ∉ p →
    startsWithL p (R ++ '+' :: bs) = startsWithL p R
  | [], _, _, _ => rfl
  | a :: p', [], bs, hp => by
    have ha : a ≠ '+' := fun h => hp (by rw [h]; exact List.mem_cons_self _ _)
    simp only [List.nil_append, startsWithL, if_neg ha]
  | a :: p', b :: R', bs, hp => by
    have hp' : '+' ∉ p' := fun h => hp (List.mem_cons_of_mem a h)
    simp only [List.cons_append, startsWithL]
    by_cases hab : a = b
    · rw [if_pos hab, if_pos hab]
      exact startsWithL_append_plus p' R' bs hp'
    · rw [if_neg hab, if_neg hab]

lemma render_incPrerelease_congr {a b : SemVer} (h1 : a.major = b.major)
    (h2 : a.minor = b.minor) (h3 : a.patch = b.patch)
    (h4 : a.prerelease = b.prerelease) :
    renderSemVer (incPrerelease a) = renderSemVer (incPrerelease b) := by
  obtain ⟨am, ai, ap, apre, abld⟩ := a
  obtain ⟨bm, bi, bp, bpre, bbld⟩ := b
  have h1' : am = bm := h1
  have h2' : ai = bi := h2
  have h3' : ap = bp := h3
  have h4' : apre = bpre := h4
  subst h1'
  subst h2'
  subst h3'
  subst h4'
  by_cases hpre : apre = []
  · subst hpre
    simp [incPrerelease, renderSemVer]
  · simp [incPrerelease, renderSemVer, hpre]

lemma decomp_after_v {t r : List Char} {w : SemVer} {pfx b : List Char}
    (hd : t = pfx ++ renderSemVer w ++ b) (hpfx : pfx = [] ∨ pfx = ['v'])
    (hr : t = 'v' :: r) :
    t = 'v' :: (renderSemVer w ++ b) := by
  obtain ⟨c, cs, hcmain, hcd⟩ := renderMain_head w.major w.minor w.patch
  have hds : renderSemVer w =
      c :: (cs ++ (if w.prerelease = [] then [] else '-' :: renderPre w.prerelease)) := by
    rw [renderSemVer, hcmain, List.cons_append]
  rcases hpfx with rfl | rfl
  · exfalso
    rw [hr, hds] at hd
    simp only [List.nil_append, List.cons_append, List.cons.injEq] at hd
    obtain ⟨hvc, -⟩ := hd
    rw [← hvc] at hcd
    exact absurd hcd (by decide)
  · rw [hd]
    simp [List.append_assoc]

end BscotchRelease

namespace BscotchRelease

lemma basePrefix_step (x y z : Nat) (u : List Char) :
    startsWithL (basePrefix (renderMain x y z)) ('v' :: u) =
      startsWithL (renderMain x y z ++ ['-']) u := by
  simp [basePrefix, startsWithL]

lemma no_plus_probe (x y z : Nat) : '+' ∉ renderMain x y z ++ ['-'] := by
  intro hmem
  rcases List.mem_append.mp hmem with hh | hh
  · exact renderMain_no_plus x y z hh
  · simp at hh

lemma startsWith_probe_stable (x y z : Nat) (R : List Char) {sfx : List Char}
    (hsfx : sfx = [] ∨ ∃ bs, sfx = '+' :: bs) :
    startsWithL (basePrefix (renderMain x y z)) ('v' :: (R ++ sfx)) =
      startsWithL (renderMain x y z ++ ['-']) R := by
  rcases hsfx with rfl | ⟨bs, rfl⟩
  · rw [basePrefix_step, List.append_nil]
  · rw [basePrefix_step]
    exact startsWithL_append_plus _ R bs (no_plus_probe x y z)

lemma resolveFromMax_respects (x y z : Nat) {t1 t2 : List Char} {w1 w2 : SemVer}
    (h1 : parseSemVer t1 = some w1) (h2 : parseSemVer t2 = some w2)
    (heq : semverCompare w1 w2 = .eq)
    (hg1 : globMatch t1 = true) (hg2 : globMatch t2 = true) :
    resolveFromMax (renderMain x y z) (.ok (some t1)) =
      resolveFromMax (renderMain x y z) (.ok (some t2)) := by
  obtain ⟨e1, e2, e3, e4⟩ := semverCompare_eq heq
  have hR : renderSemVer w1 = renderSemVer w2 := by
    rw [renderSemVer, renderSemVer, e1, e2, e3, e4]
  obtain ⟨r1, hr1, -⟩ := globMatch_elim hg1
  obtain ⟨r2, hr2, -⟩ := globMatch_elim hg2
  obtain ⟨pfx1, b1, hpfx1, hd1, hb1⟩ := parseSemVer_decomp h1
  obtain ⟨pfx2, b2, hpfx2, hd2, hb2⟩ := parseSemVer_decomp h2
  have ht1 : t1 = 'v' :: (renderSemVer w1 ++ b1) := decomp_after_v hd1 hpfx1 hr1
  have ht2 : t2 = 'v' :: (renderSemVer w2 ++ b2) := decomp_after_v hd2 hpfx2 hr2
  have hb1' : b1 = [] ∨ ∃ bs, b1 = '+' :: bs := by
    rcases hb1 with h | ⟨bs, h, -, -⟩
    · exact Or.inl h
    · exact Or.inr ⟨bs, h⟩
  have hb2' : b2 = [] ∨ ∃ bs, b2 = '+' :: bs := by
    rcases hb2 with h | ⟨bs, h, -, -⟩
    · exact Or.inl h
    · exact Or.inr ⟨bs, h⟩
  have hsw : startsWithL (basePrefix (renderMain x y z)) t1 =
      startsWithL (basePrefix (renderMain x y z)) t2 := by
    rw [ht1, ht2, hR, startsWith_probe_stable x y z _ hb1',
      startsWith_probe_stable x y z _ hb2']
  by_cases hc : startsWithL (basePrefix (renderMain x y z)) t1 = true
  · have hc2 : startsWithL (basePrefix (renderMain x y z)) t2 = true := by
      rw [← hsw]
      exact hc
    simp only [resolveFromMax, hc, hc2, if_true, h1, h2]
    rw [render_incPrerelease_congr e1 e2 e3 e4]
  · have hc1 : startsWithL (basePrefix (renderMain x y z)) t1 = false := by
      cases hx : startsWithL (basePrefix (renderMain x y z)) t1 with
      | false => rfl
      | true => exact absurd hx hc
    have hc2 : startsWithL (basePrefix (renderMain x y z)) t2 = false := by
      rw [← hsw]
      exact hc1
    simp only [resolveFromMax, hc1, hc2, Bool.false_eq_true, if_false]

end BscotchRelease

namespace BscotchRelease

lemma resolveFromMax_maxVersion_perm (x y z : Nat) {l l' : List (List Char)}
    (hp : l.Perm l') (hg : ∀ t ∈ l, globMatch t = true) :
    resolveFromMax (renderMain x y z) (maxVersion l) =
      resolveFromMax (renderMain x y z) (maxVersion l') := by
  have hg' : ∀ t ∈ l', globMatch t = true := fun t ht => hg t (hp.mem_iff.mpr ht)
  rcases l with _ | ⟨a, _ | ⟨b, rest⟩⟩
  · have hnil : l' = [] := hp.symm.eq_nil
    rw [hnil]
  · have hlen := hp.length_eq
    rcases l' with _ | ⟨a', _ | ⟨b', rest'⟩⟩
    · simp at hlen
    · have ha : a ∈ [a'] := hp.subset (List.mem_singleton.mpr rfl)
      rw [List.mem_singleton.mp ha]
    · simp at hlen
  · have hlen := hp.length_eq
    rcases l' with _ | ⟨a', _ | ⟨b', rest'⟩⟩
    · simp at hlen
    · simp at hlen
    · by_cases hall : ∀ t ∈ a :: b :: rest, (parseSemVer t).isSome = true
      · have hall' : ∀ t ∈ a' :: b' :: rest', (parseSemVer t).isSome = true :=
          fun t ht => hall t (hp.mem_iff.mpr ht)
        obtain ⟨r1, hr1⟩ := maxVersion_ok_of_parse hall
        obtain ⟨r2, hr2⟩ := maxVersion_ok_of_parse hall'
        rcases r1 with _ | m1
        · cases maxVersion_ok_none hr1
        rcases r2 with _ | m2
        · cases maxVersion_ok_none hr2
        rw [hr1, hr2]
        obtain ⟨hm1mem, hmax1⟩ := maxVersion_ok_some hr1
        obtain ⟨hm2mem, hmax2⟩ := maxVersion_ok_some hr2
        obtain ⟨w1, hw1⟩ := Option.isSome_iff_exists.mp (hall m1 hm1mem)
        obtain ⟨w2, hw2⟩ := Option.isSome_iff_exists.mp (hall' m2 hm2mem)
        have hng1 : semverCompareStr m1 m2 ≠ .gt := hmax2 m1 (hp.mem_iff.mp hm1mem)
        have hng2 : semverCompareStr m2 m1 ≠ .gt := hmax1 m2 (hp.mem_iff.mpr hm2mem)
        rw [semverCompareStr_parsed hw1 hw2] at hng1
        rw [semverCompareStr_parsed hw2 hw1] at hng2
        have heq : semverCompare w1 w2 = .eq := by
          rcases hcc : semverCompare w1 w2 with _ | _ | _
          · exfalso
            have hswap := semverCompare_swap w2 w1
            rw [hcc] at hswap
            exact hng2 hswap
          · rfl
          · exact absurd hcc hng1
        exact resolveFromMax_respects x y z hw1 hw2 heq
          (hg m1 hm1mem) (hg' m2 hm2mem)
      · have hall' : ¬ ∀ t ∈ a' :: b' :: rest', (parseSemVer t).isSome = true :=
          fun h => hall (fun t ht => h t (hp.mem_iff.mp ht))
        have h1e : maxVersion (a :: b :: rest) = .error .invalidTagFormat := by
          simp only [maxVersion]
          rw [if_neg (by rw [List.all_eq_true]; exact hall)]
        have h2e : maxVersion (a' :: b' :: rest') = .error .invalidTagFormat := by
          simp only [maxVersion]
          rw [if_neg (by rw [List.all_eq_true]; exact hall')]
        rw [h1e, h2e]

/-- Claim C6: for a valid plain base version `x.y.z` (no prerelease segment),
the resolution result — version, tag, or error — is identical for any
permutation of the input tag list: the computation is order-independent. -/
theorem c6_order_independence (x y z : Nat) (tags tags' : List (List Char))
    (hperm : tags.Perm tags') :
    resolveNext (renderMain x y z) tags = resolveNext (renderMain x y z) tags' := by
  rw [resolveNext, resolveNext, getMaxMatchingTag, getMaxMatchingTag]
  have hpf : (getMatchingTags tags).Perm (getMatchingTags tags') := by
    rw [getMatchingTags, getMatchingTags]
    exact hperm.filter globMatch
  have hglob : ∀ t ∈ getMatchingTags tags, globMatch t = true := by
    intro t ht
    rw [getMatchingTags, List.mem_filter] at ht
    exact ht.2
  exact resolveFromMax_maxVersion_perm x y z hpf hglob

/-- Witness for `c6_order_independence`: swapping the two tags
`v1.0.0-bscotch.1` and `v1.0.0-bscotch.4+build` leaves the result unchanged. -/
theorem c6_order_independence_witness :
    resolveNext (renderMain 1 0 0)
        ["v1.0.0-bscotch.1".data, "v1.0.0-bscotch.4+build".data] =
      resolveNext (renderMain 1 0 0)
        ["v1.0.0-bscotch.4+build".data, "v1.0.0-bscotch.1".data] :=
  c6_order_independence 1 0 0
    ["v1.0.0-bscotch.1".data, "v1.0.0-bscotch.4+build".data]
    ["v1.0.0-bscotch.4+build".data, "v1.0.0-bscotch.1".data]
    (List.Perm.swap "v1.0.0-bscotch.4+build".data "v1.0.0-bscotch.1".data [])

end BscotchRelease
